import Mathlib

/-!
Verification development for the JSON Bulgarian-data translator
(`main.py`).  The Python value universe that the program walks (parsed
JSON: dicts, lists, strings, numbers, booleans, None) is embedded as a
mutual inductive family `Json` / `JsonEntries` / `JsonItems`; dicts are
ordered association lists, mirroring Python 3.7+ insertion-ordered
dicts.  The external Google translation capability is modelled as an
explicit function argument `tr : String → String` (the program's
`translate_text` catches every translator failure and returns the input
unchanged, so a total function models the boundary faithfully).
-/

set_option maxRecDepth 8000

mutual

inductive Json where
  | str (s : String)
  | num (n : Int)
  | bool (b : Bool)
  | null
  | obj (entries : JsonEntries)
  | arr (items : JsonItems)

inductive JsonEntries where
  | nil
  | cons (key : String) (value : Json) (rest : JsonEntries)

inductive JsonItems where
  | nil
  | cons (head : Json) (tail : JsonItems)

end

/-- Number of entries of a JSON mapping. -/
def JsonEntries.length : JsonEntries → Nat
  | .nil => 0
  | .cons _ _ rest => rest.length + 1

/-- Number of elements of a JSON sequence. -/
def JsonItems.length : JsonItems → Nat
  | .nil => 0
  | .cons _ tail => tail.length + 1

/-- Keys of a mapping, in insertion order. -/
def JsonEntries.keys : JsonEntries → List String
  | .nil => []
  | .cons k _ rest => k :: rest.keys

/-- Entries of a mapping as a Lean association list. -/
def JsonEntries.toList : JsonEntries → List (String × Json)
  | .nil => []
  | .cons k v rest => (k, v) :: rest.toList

/-- Elements of a sequence as a Lean list. -/
def JsonItems.toList : JsonItems → List Json
  | .nil => []
  | .cons v rest => v :: rest.toList

/-- Python `list.append`: add one element at the end. -/
def JsonItems.push : JsonItems → Json → JsonItems
  | .nil, x => .cons x .nil
  | .cons v rest, x => .cons v (rest.push x)

/-- Python dict assignment `d[k] = v`: if the key is already present its
value is overwritten in place (the entry keeps its original position),
otherwise the new entry is appended at the end. -/
def dictInsert : JsonEntries → String → Json → JsonEntries
  | .nil, k, v => .cons k v .nil
  | .cons k0 v0 rest, k, v =>
    if k0 = k then .cons k0 v rest else .cons k0 v0 (dictInsert rest k v)

/-- Python truthiness of a parsed-JSON value (`if not data:`): `None`,
`False`, `0`, `""`, `[]` and `{}` are falsy. -/
def falsy : Json → Bool
  | .str s => s = ""
  | .num n => n = 0
  | .bool b => !b
  | .null => true
  | .obj .nil => true
  | .obj (.cons _ _ _) => false
  | .arr .nil => true
  | .arr (.cons _ _) => false

/-- Python `str(value)` on the scalar values the program can reach with
it: `str` on a string is the identity, integers print in decimal,
`None`/`True`/`False` print their literal names.  The program only ever
applies `str` to non-container values (dicts and lists are intercepted
by earlier `isinstance` branches), so the container cases are
unreachable and map to `""`. -/
def pyStr : Json → String
  | .str s => s
  | .num n => toString n
  | .bool true => "True"
  | .bool false => "False"
  | .null => "None"
  | .obj _ => ""
  | .arr _ => ""

/-- Embedding of `translate_text` (main.py lines 37-47) relative to the
translation capability `tr`.  The Python function returns its argument
unchanged when it is falsy (the empty string) and otherwise calls the
external translator, returning the original text if the call raises;
the capability `tr` therefore absorbs both the success and the
fail-returns-original behaviours. -/
def translate_text (tr : String → String) (text : String) : String :=
  if text = "" then text else tr text

/-- Python whitespace class used by `str.strip()`. -/
def isPySpace (c : Char) : Bool :=
  c = ' ' || c = '\t' || c = '\n' || c = '\r' || c = '\x0b' || c = '\x0c'

/-- Python `str.strip()` on the character list of a string. -/
def pyStrip (cs : List Char) : List Char :=
  ((cs.dropWhile isPySpace).reverse.dropWhile isPySpace).reverse

/-- First maximal run of decimal digits of a string, as matched by the
regex `(\d+)` in `extract_numeric_part` (main.py line 27). -/
def firstDigitRun : List Char → Option (List Char)
  | [] => none
  | c :: cs =>
    if c.isDigit then some (c :: cs.takeWhile Char.isDigit)
    else firstDigitRun cs

/-- Python `text.replace(pat, "", 1)`: remove the first occurrence of
`pat` (main.py line 33).  The program only calls this with a non-empty
digit run as the pattern. -/
def replaceFirst (cs pat : List Char) : List Char :=
  if pat.isPrefixOf cs then cs.drop pat.length
  else
    match cs with
    | [] => []
    | c :: rest => c :: replaceFirst rest pat

/-- Python `int` on a non-empty string of decimal digits. -/
def digitsToNat (cs : List Char) : Nat :=
  cs.foldl (fun a c => a * 10 + (c.toNat - '0'.toNat)) 0

/-- Embedding of `extract_numeric_part` (main.py lines 21-35): find the
first maximal digit run, remove its first occurrence from the text and
strip surrounding whitespace from the remainder. -/
def extract_numeric_part (text : String) : Option String × String :=
  if text = "" then (none, text)
  else
    match firstDigitRun text.data with
    | none => (none, text)
    | some run =>
      (some (String.mk run), String.mk (pyStrip (replaceFirst text.data run)))

/-- The `_bgd` table of main.py lines 121-129: Bulgarian words (in Latin
letters) for 0-20 and the decades 30-90. -/
def bgd : Nat → Option String
  | 0 => some "nula"
  | 1 => some "edno"
  | 2 => some "dve"
  | 3 => some "tri"
  | 4 => some "chetiri"
  | 5 => some "pet"
  | 6 => some "shest"
  | 7 => some "sedem"
  | 8 => some "osem"
  | 9 => some "devet"
  | 10 => some "deset"
  | 11 => some "edinadeset"
  | 12 => some "dvanadeset"
  | 13 => some "trinadeset"
  | 14 => some "chetirinadeset"
  | 15 => some "petnadeset"
  | 16 => some "shestnadeset"
  | 17 => some "sedemnadeset"
  | 18 => some "osemnadeset"
  | 19 => some "devetnadeset"
  | 20 => some "dvadeset"
  | 30 => some "trideset"
  | 40 => some "chetirideset"
  | 50 => some "petdeset"
  | 60 => some "shestdeset"
  | 70 => some "sedemdeset"
  | 80 => some "osemdeset"
  | 90 => some "devetdeset"
  | _ => none

/-- The `_hundreds` table of main.py lines 132-135. -/
def hundredsTbl : Nat → Option String
  | 1 => some "sto"
  | 2 => some "dvesta"
  | 3 => some "trista"
  | 4 => some "chetiristotin"
  | 5 => some "petstotin"
  | 6 => some "sheststotin"
  | 7 => some "sedemstotin"
  | 8 => some "osemstotin"
  | 9 => some "devetstotin"
  | _ => none

/-- Python `" ".join(words)`. -/
def joinSp : List String → String
  | [] => ""
  | [w] => w
  | w :: ws => w ++ " " ++ joinSp ws

/-- Embedding of `number_to_bulgarian_words` (main.py lines 137-200) on
the non-negative integers (the program only reaches it with the value
of a parsed digit run).  The Python function threads a mutable `number`
through the billions/millions/thousands/hundreds/tens blocks, each of
which appends at most one word; the `let nᵢ` bindings below are those
intermediate values of `number`, and the final string is
`" ".join(words)`. -/
def number_to_bulgarian_words (number : Nat) : String :=
  if number = 0 then "nula"
  else
    let billionWords : List String :=
      if _h : 1000000000 ≤ number then
        let billions := number / 1000000000
        if billions = 1 then ["edin miliard"]
        else if 1 < billions then
          [number_to_bulgarian_words billions ++ " miliarda"]
        else []
      else []
    let n1 : Nat := if 1000000000 ≤ number then number % 1000000000 else number
    let millionWords : List String :=
      if _h : 1000000 ≤ n1 then
        let millions := n1 / 1000000
        if millions = 1 then ["edin milion"]
        else if 1 < millions then
          [number_to_bulgarian_words millions ++ " miliona"]
        else []
      else []
    let n2 : Nat := if 1000000 ≤ n1 then n1 % 1000000 else n1
    let thousandWords : List String :=
      if _h : 1000 ≤ n2 then
        let thousands := n2 / 1000
        if thousands = 1 then ["hilyada"]
        else if 1 < thousands then
          [number_to_bulgarian_words thousands ++ " hilyadi"]
        else []
      else []
    let n3 : Nat := if 1000 ≤ n2 then n2 % 1000 else n2
    let hundredWords : List String :=
      if 100 ≤ n3 then
        match hundredsTbl (n3 / 100) with
        | some w => [w]
        | none => []
      else []
    let n4 : Nat := if 100 ≤ n3 then n3 % 100 else n3
    let tensWords : List String :=
      if 0 < n4 then
        if n4 < 20 && (bgd n4).isSome then
          match bgd n4 with
          | some w => [w]
          | none => []
        else
          let tens := n4 / 10 * 10
          let units := n4 % 10
          match bgd tens with
          | some tw =>
            if units = 0 then [tw]
            else
              match bgd units with
              | some uw => [tw ++ " i " ++ uw]
              | none => []
          | none => []
      else []
    joinSp (billionWords ++ millionWords ++ thousandWords ++ hundredWords ++ tensWords)
termination_by number
decreasing_by
  · exact Nat.div_lt_self (by omega) (by omega)
  · have hle : n1 ≤ number := by unfold_let n1; split <;> omega
    calc n1 / 1000000 < n1 := Nat.div_lt_self (by omega) (by omega)
    _ ≤ number := hle
  · have hle1 : n1 ≤ number := by unfold_let n1; split <;> omega
    have hle2 : n2 ≤ n1 := by unfold_let n2; split <;> omega
    calc n2 / 1000 < n2 := Nat.div_lt_self (by omega) (by omega)
    _ ≤ number := le_trans hle2 hle1

/-- Token-level view of the hundreds/tens/units block of
`number_to_bulgarian_words` for a two-digit residue `w`: the word-list
entry `"tw i uw"` is split into its three space-separated tokens. -/
def tensUnitsTokens (w : Nat) : List String :=
  if 0 < w then
    if w < 20 && (bgd w).isSome then
      match bgd w with
      | some t => [t]
      | none => []
    else
      match bgd (w / 10 * 10) with
      | some tw =>
        if w % 10 = 0 then [tw]
        else
          match bgd (w % 10) with
          | some uw => [tw, "i", uw]
          | none => []
      | none => []
  else []

/-- Token-level view of the 0-999 block of
`number_to_bulgarian_words`. -/
def smallTokens (r : Nat) : List String :=
  (if 100 ≤ r then
     match hundredsTbl (r / 100) with
     | some w => [w]
     | none => []
   else []) ++
  tensUnitsTokens (r % 100)

/-- Flat space-separated token sequence produced by
`number_to_bulgarian_words`; the bridge is `n2bw_eq_joinSp_flat`
below. -/
def flatTokens (n : Nat) : List String :=
  if n = 0 then ["nula"]
  else
    (if _h : 1000000000 ≤ n then
       if n / 1000000000 = 1 then ["edin", "miliard"]
       else flatTokens (n / 1000000000) ++ ["miliarda"]
     else []) ++
    (if _h : 1000000 ≤ n % 1000000000 then
       if n % 1000000000 / 1000000 = 1 then ["edin", "milion"]
       else flatTokens (n % 1000000000 / 1000000) ++ ["miliona"]
     else []) ++
    (if _h : 1000 ≤ n % 1000000 then
       if n % 1000000 / 1000 = 1 then ["hilyada"]
       else flatTokens (n % 1000000 / 1000) ++ ["hilyadi"]
     else []) ++
    smallTokens (n % 1000)
termination_by n
decreasing_by
  · exact Nat.div_lt_self (by omega) (by omega)
  · have : n % 1000000000 ≤ n := Nat.mod_le n 1000000000
    calc n % 1000000000 / 1000000 < n % 1000000000 :=
      Nat.div_lt_self (by omega) (by omega)
    _ ≤ n := this
  · have : n % 1000000 ≤ n := Nat.mod_le n 1000000
    calc n % 1000000 / 1000 < n % 1000000 :=
      Nat.div_lt_self (by omega) (by omega)
    _ ≤ n := this

/-- Correspondence between a group's word-list entries (which may
contain internal spaces) and its flat token sequence: both empty, or
both non-empty with equal space-joins. -/
def JCorr (ws fs : List String) : Prop :=
  (ws = [] ∧ fs = []) ∨ (ws ≠ [] ∧ fs ≠ [] ∧ joinSp ws = joinSp fs)

/-- Split a character list at single space characters (the joiner used
by `" ".join`); inverse of `joinSp` on space-free words. -/
def tokenize : List Char → List (List Char)
  | [] => [[]]
  | c :: cs =>
    if c = ' ' then [] :: tokenize cs
    else
      match tokenize cs with
      | [] => [[c]]
      | t :: ts => (c :: t) :: ts

/-- Space-separated word tokens of a string. -/
def wordTokens (s : String) : List String :=
  (tokenize s.data).map (fun cs => String.mk cs)

/-- Inverse of the 1-19 entries of the `_bgd` table, for the
words-to-number verification oracle. -/
def lookupTeen : String → Option Nat
  | "edno" => some 1
  | "dve" => some 2
  | "tri" => some 3
  | "chetiri" => some 4
  | "pet" => some 5
  | "shest" => some 6
  | "sedem" => some 7
  | "osem" => some 8
  | "devet" => some 9
  | "deset" => some 10
  | "edinadeset" => some 11
  | "dvanadeset" => some 12
  | "trinadeset" => some 13
  | "chetirinadeset" => some 14
  | "petnadeset" => some 15
  | "shestnadeset" => some 16
  | "sedemnadeset" => some 17
  | "osemnadeset" => some 18
  | "devetnadeset" => some 19
  | _ => none

/-- Inverse of the decade entries of the `_bgd` table. -/
def lookupTens : String → Option Nat
  | "dvadeset" => some 20
  | "trideset" => some 30
  | "chetirideset" => some 40
  | "petdeset" => some 50
  | "shestdeset" => some 60
  | "sedemdeset" => some 70
  | "osemdeset" => some 80
  | "devetdeset" => some 90
  | _ => none

/-- Inverse of the unit entries 1-9 of the `_bgd` table. -/
def lookupUnit : String → Option Nat
  | "edno" => some 1
  | "dve" => some 2
  | "tri" => some 3
  | "chetiri" => some 4
  | "pet" => some 5
  | "shest" => some 6
  | "sedem" => some 7
  | "osem" => some 8
  | "devet" => some 9
  | _ => none

/-- Inverse of the `_hundreds` table (returns the hundreds digit). -/
def lookupHund : String → Option Nat
  | "sto" => some 1
  | "dvesta" => some 2
  | "trista" => some 3
  | "chetiristotin" => some 4
  | "petstotin" => some 5
  | "sheststotin" => some 6
  | "sedemstotin" => some 7
  | "osemstotin" => some 8
  | "devetstotin" => some 9
  | _ => none

/-- Oracle stage: consume one hundreds word, if present. -/
def parseHund : List String → Nat × List String
  | [] => (0, [])
  | t :: rest =>
    match lookupHund t with
    | some h => (h * 100, rest)
    | none => (0, t :: rest)

/-- Oracle stage: consume the tens/teens/units words of a 0-99 group,
including the conjunction token `i` between tens and units. -/
def parseTU : List String → Nat × List String
  | [] => (0, [])
  | t :: rest =>
    match lookupTeen t with
    | some v => (v, rest)
    | none =>
      match lookupTens t with
      | none => (0, t :: rest)
      | some tv =>
        match rest with
        | [] => (tv, [])
        | t2 :: rest2 =>
          if t2 = "i" then
            match rest2 with
            | [] => (tv, rest)
            | u :: rest3 =>
              match lookupUnit u with
              | some uv => (tv + uv, rest3)
              | none => (tv, rest)
          else (tv, rest)

/-- Oracle stage: parse a 0-999 group (hundreds then tens/units),
consuming nothing when no group word is present. -/
def parseSmall (toks : List String) : Nat × List String :=
  let p1 := parseHund toks
  let p2 := parseTU p1.2
  (p1.1 + p2.1, p2.2)

/-- Oracle stage: parse the millions group (`edin milion`, or a 0-999
group followed by `miliona`), consuming nothing when absent. -/
def parseMillions (toks : List String) : Nat × List String :=
  if toks.take 2 = ["edin", "milion"] then (1, toks.drop 2)
  else
    let p := parseSmall toks
    if p.2.head? = some "miliona" then (p.1, p.2.tail) else (0, toks)

/-- Oracle stage: parse the thousands group (`hilyada`, or a 0-999
group followed by `hilyadi`), consuming nothing when absent. -/
def parseThousands (toks : List String) : Nat × List String :=
  if toks.head? = some "hilyada" then (1, toks.tail)
  else
    let p := parseSmall toks
    if p.2.head? = some "hilyadi" then (p.1, p.2.tail) else (0, toks)

/-- Words-to-number verification oracle on token sequences, built as
the inverse of the language tables and the magnitude grouping, for the
range [0, 10^9). -/
def parseTokens (toks : List String) : Option Nat :=
  if toks = ["nula"] then some 0
  else
    let pm := parseMillions toks
    let pt := parseThousands pm.2
    let ps := parseSmall pt.2
    if ps.2 = [] then some (pm.1 * 1000000 + pt.1 * 1000 + ps.1) else none

/-- Words-to-number verification oracle on strings: split at spaces and
parse the token sequence. -/
def wordsToNumber (s : String) : Option Nat :=
  parseTokens (wordTokens s)

/-- A token at which the 0-999 stage of the oracle must stop: no table
matches it and it is not the conjunction. -/
def stopTok (t : String) : Prop :=
  lookupHund t = none ∧ lookupTeen t = none ∧ lookupTens t = none ∧ t ≠ "i"

/-- Continuation constraint for the 0-999 stage: empty, or starting
with a stopping token. -/
def stopRest : List String → Prop
  | [] => True
  | t :: _ => stopTok t

/-- Token sequence of one thousands group. -/
def thouTokens (q : Nat) : List String :=
  if q = 0 then [] else if q = 1 then ["hilyada"] else smallTokens q ++ ["hilyadi"]

/-- Token sequence of one millions group. -/
def millTokens (q : Nat) : List String :=
  if q = 0 then [] else if q = 1 then ["edin", "milion"]
  else smallTokens q ++ ["miliona"]

/-- Python `str.lower()` restricted to ASCII letters (the translated
remainders and keys the program inspects are Latin-script). -/
def pyLower (s : String) : String := String.mk (s.data.map Char.toLower)

/-- Python `pat in s` substring test on character lists. -/
def containsSub (cs pat : List Char) : Bool :=
  pat.isPrefixOf cs ||
    (match cs with
     | [] => false
     | _ :: rest => containsSub rest pat)

/-- The currency normalization of main.py lines 65-68: when the
translated remainder is non-empty and contains `lev` case-insensitively
it is replaced whole by `leva`. -/
def levNormalize (translated_text : String) : String :=
  if translated_text ≠ "" &&
      containsSub (pyLower translated_text).data "lev".data then "leva"
  else translated_text

/-- Embedding of the string-value branch of `process_property_item`
(main.py lines 57-74): extract the first digit run, spell it out, and
recombine with the normalized translated remainder.  The `except`
fallback of lines 70-72 is unreachable in the embedding: `int` on a
non-empty digit run and `number_to_bulgarian_words` on its value are
total, and `translate_text` catches its own errors, so the `try` body
never raises. -/
def process_string_value (tr : String → String) (value : String) : String :=
  match extract_numeric_part value with
  | (some numeric_part, text_part) =>
    if numeric_part = "" then translate_text tr value
    else
      number_to_bulgarian_words (digitsToNat numeric_part.data) ++ " " ++
        levNormalize (translate_text tr text_part)
  | (none, _) => translate_text tr value

mutual

/-- Embedding of `process_property_item` (main.py lines 49-92). -/
def process_property_item (tr : String → String) : Json → Json
  | .obj entries => .obj (processEntries tr entries .nil)
  | .arr items => .arr (processItems tr items)
  | .str s => .str (translate_text tr s)
  | v => v

/-- The dict loop of `process_property_item` (main.py lines 52-86):
iterate over the entries in order, translating each key and processing
each value, assigning into the `result` dict. -/
def processEntries (tr : String → String) :
    JsonEntries → JsonEntries → JsonEntries
  | .nil, result => result
  | .cons key value rest, result =>
    processEntries tr rest
      (dictInsert result (translate_text tr key) (processDictValue tr value))

/-- The per-value branch of the dict loop (main.py lines 57-83): a
string goes through numeral reconstruction, a dict or list recurses
(the dict case is `process_property_item` on a dict, inlined to its
entries loop), and any other value is stringified via `str`. -/
def processDictValue (tr : String → String) : Json → Json
  | .str s => .str (process_string_value tr s)
  | .obj entries => .obj (processEntries tr entries .nil)
  | .arr items => .arr (processItems tr items)
  | v => .str (pyStr v)

/-- List comprehension `[process_property_item(item) for item in value]`
(main.py lines 80 and 88). -/
def processItems (tr : String → String) : JsonItems → JsonItems
  | .nil => .nil
  | .cons v rest => .cons (process_property_item tr v) (processItems tr rest)

end

/-- The top-level dict loop of `translate_data` (main.py lines 101-112):
a dict value recurses through `process_property_item`, a list maps it,
and anything else (including strings) is stringified and passed through
`translate_text`. -/
def translateTopEntries (tr : String → String) :
    JsonEntries → JsonEntries → JsonEntries
  | .nil, result => result
  | .cons key value rest, result =>
    let translated_value : Json :=
      match value with
      | .obj entries => process_property_item tr (.obj entries)
      | .arr items => .arr (processItems tr items)
      | v => .str (translate_text tr (pyStr v))
    translateTopEntries tr rest
      (dictInsert result (translate_text tr key) translated_value)

/-- Embedding of `translate_data` (main.py lines 94-118): falsy input
returns the empty dict, a dict is processed entry by entry, a list maps
`process_property_item`, and any other root returns the empty dict. -/
def translate_data (tr : String → String) (data : Json) : Json :=
  if falsy data then .obj .nil
  else
    match data with
    | .obj entries => .obj (translateTopEntries tr entries .nil)
    | .arr items => .arr (processItems tr items)
    | _ => .obj .nil

/-- The listing-likeness scan of `extract_properties` (main.py lines
211-217): some key, lowercased then translated, is one of the four
marker keys. -/
def property_like (tr : String → String) : JsonEntries → Bool
  | .nil => false
  | .cons key _ rest =>
    ["district", "type", "area", "price"].contains
      (translate_text tr (pyLower key)) || property_like tr rest

mutual

/-- Embedding of `extract_properties` (main.py lines 202-231),
threading the `processed_properties` accumulator explicitly. -/
def extract_properties (tr : String → String) : Json → JsonItems → JsonItems
  | .obj entries, acc =>
    if property_like tr entries then acc.push (.obj entries)
    else extractFromValues tr entries acc
  | .arr items, acc => extractFromItems tr items acc
  | _, acc => acc

/-- The container recursion of `extract_properties` over the values of
a non-listing-like dict (main.py lines 224-225). -/
def extractFromValues (tr : String → String) :
    JsonEntries → JsonItems → JsonItems
  | .nil, acc => acc
  | .cons _ v rest, acc => extractFromValues tr rest (extract_properties tr v acc)

/-- The container recursion of `extract_properties` over the elements
of a list (main.py lines 227-229). -/
def extractFromItems (tr : String → String) :
    JsonItems → JsonItems → JsonItems
  | .nil, acc => acc
  | .cons v rest, acc => extractFromItems tr rest (extract_properties tr v acc)

end

/-- Shape of a tree: container kinds, cardinalities and entry order,
with scalar content erased. -/
inductive Shape where
  | scalar
  | mapping (entryShapes : List Shape)
  | sequence (itemShapes : List Shape)

mutual

/-- Shape of a JSON value. -/
def shape : Json → Shape
  | .obj entries => .mapping (shapeEntries entries)
  | .arr items => .sequence (shapeItems items)
  | _ => .scalar

/-- Shapes of the values of a mapping, in entry order. -/
def shapeEntries : JsonEntries → List Shape
  | .nil => []
  | .cons _ v rest => shape v :: shapeEntries rest

/-- Shapes of the elements of a sequence, in order. -/
def shapeItems : JsonItems → List Shape
  | .nil => []
  | .cons v rest => shape v :: shapeItems rest

end

/-- Translated keys of a mapping, in entry order. -/
def tKeys (tr : String → String) (entries : JsonEntries) : List String :=
  entries.keys.map (fun k => translate_text tr k)

mutual

/-- No key collisions anywhere in the tree: within every mapping, the
translated keys are pairwise distinct. -/
def noCollide (tr : String → String) : Json → Prop
  | .obj entries => (tKeys tr entries).Nodup ∧ noCollideEntries tr entries
  | .arr items => noCollideItems tr items
  | _ => True

/-- `noCollide` for each value of a mapping. -/
def noCollideEntries (tr : String → String) : JsonEntries → Prop
  | .nil => True
  | .cons _ v rest => noCollide tr v ∧ noCollideEntries tr rest

/-- `noCollide` for each element of a sequence. -/
def noCollideItems (tr : String → String) : JsonItems → Prop
  | .nil => True
  | .cons v rest => noCollide tr v ∧ noCollideItems tr rest

end

/-- Listing-likeness of a value: a mapping whose translated lowercased
keys meet the marker set. -/
def isPropLike (tr : String → String) : Json → Prop
  | .obj entries => property_like tr entries = true
  | _ => False

/-- Concatenation of two entry lists. -/
def JsonEntries.append : JsonEntries → JsonEntries → JsonEntries
  | .nil, ys => ys
  | .cons k v rest, ys => .cons k v (rest.append ys)

/-- A string with no decimal digits (never triggers the numeral
reconstruction path). -/
def noDigits (s : String) : Prop := ∀ c ∈ s.data, ¬c.isDigit = true

mutual

/-- Trees on which `process_property_item` with the identity capability
is a no-op: every mapping has pairwise-distinct keys and every mapping
value is a digit-free string or a nested container of the same kind. -/
def Stable : Json → Prop
  | .obj entries => entries.keys.Nodup ∧ StableEntries entries
  | .arr items => StableItems items
  | _ => True

/-- `Stable` for the entries of a mapping. -/
def StableEntries : JsonEntries → Prop
  | .nil => True
  | .cons _ v rest => StableValue v ∧ StableEntries rest

/-- Stability of one mapping value: dict values go through numeral
reconstruction and stringification, so they must be digit-free strings
or containers; non-string scalars are never stable (they stringify). -/
def StableValue : Json → Prop
  | .str s => noDigits s
  | .obj entries => entries.keys.Nodup ∧ StableEntries entries
  | .arr items => StableItems items
  | .num _ => False
  | .bool _ => False
  | .null => False

/-- `Stable` for the elements of a sequence. -/
def StableItems : JsonItems → Prop
  | .nil => True
  | .cons v rest => Stable v ∧ StableItems rest

end

/-- Non-string scalar values of the Python data model. -/
def isNonStringScalar : Json → Prop
  | .num _ => True
  | .bool _ => True
  | .null => True
  | _ => False

theorem joinSp_cons (w : String) (ws : List String) (h : ws ≠ []) :
    joinSp (w :: ws) = w ++ " " ++ joinSp ws := by
  cases ws with
  | nil => exact absurd rfl h
  | cons w2 ws2 => rfl

theorem joinSp_append (xs ys : List String) (hx : xs ≠ []) (hy : ys ≠ []) :
    joinSp (xs ++ ys) = joinSp xs ++ " " ++ joinSp ys := by
  induction xs with
  | nil => exact absurd rfl hx
  | cons w xs ih =>
    cases xs with
    | nil =>
      simp only [List.singleton_append]
      rw [joinSp_cons w ys hy]
      rfl
    | cons w2 xs2 =>
      rw [List.cons_append, joinSp_cons w (w2 :: xs2 ++ ys) (by simp),
        joinSp_cons w (w2 :: xs2) (by simp), ih (by simp)]
      simp [String.append_assoc]

theorem JCorr.refl (ws : List String) : JCorr ws ws := by
  cases ws with
  | nil => exact Or.inl ⟨rfl, rfl⟩
  | cons w ws => exact Or.inr ⟨by simp, by simp, rfl⟩

theorem JCorr.append {a fa b fb : List String} (h1 : JCorr a fa)
    (h2 : JCorr b fb) : JCorr (a ++ b) (fa ++ fb) := by
  rcases h1 with ⟨ha, hfa⟩ | ⟨ha, hfa, hja⟩
  · subst ha; subst hfa; simpa using h2
  · rcases h2 with ⟨hb, hfb⟩ | ⟨hb, hfb, hjb⟩
    · subst hb; subst hfb; simpa using Or.inr ⟨ha, hfa, hja⟩
    · refine Or.inr ⟨by simp [ha], by simp [hfa], ?_⟩
      rw [joinSp_append a b ha hb, joinSp_append fa fb hfa hfb, hja, hjb]

theorem joinSp_JCorr {ws fs : List String} (h : JCorr ws fs) :
    joinSp ws = joinSp fs := by
  rcases h with ⟨h1, h2⟩ | ⟨_, _, h⟩
  · rw [h1, h2]
  · exact h

theorem smallTokens_ne_nil : ∀ r, r < 1000 → 1 ≤ r → smallTokens r ≠ [] := by
  decide

theorem flatTokens_ne_nil : ∀ n, 1 ≤ n → flatTokens n ≠ [] := by
  intro n h
  rw [flatTokens]
  simp only [if_neg (show ¬n = 0 by omega)]
  intro hc
  rw [List.append_eq_nil, List.append_eq_nil, List.append_eq_nil] at hc
  obtain ⟨⟨⟨h1, h2⟩, h3⟩, h4⟩ := hc
  by_cases hb : 1000000000 ≤ n
  · rw [dif_pos hb] at h1
    split at h1 <;> simp at h1
  · by_cases hm : 1000000 ≤ n % 1000000000
    · rw [dif_pos hm] at h2
      split at h2 <;> simp at h2
    · by_cases ht : 1000 ≤ n % 1000000
      · rw [dif_pos ht] at h3
        split at h3 <;> simp at h3
      · exact smallTokens_ne_nil (n % 1000) (by omega) (by omega) h4

theorem splitIWord (tw uw : String) :
    tw ++ " i " ++ uw = tw ++ " " ++ ("i" ++ " " ++ uw) := by
  apply String.ext
  simp [String.data_append]

/-- Spelling of one magnitude group: the words entry of
`number_to_bulgarian_words` (irregular one-form, or recursive quotient
plus plural suffix) corresponds to its flat token sequence. -/
theorem group_JCorr (q : Nat) (hq : 1 ≤ q) (one plural : String)
    (oneToks : List String) (hone : joinSp oneToks = one)
    (honene : oneToks ≠ [])
    (ihq : number_to_bulgarian_words q = joinSp (flatTokens q)) :
    JCorr
      (if q = 1 then [one]
       else if 1 < q then [number_to_bulgarian_words q ++ (" " ++ plural)]
       else [])
      (if q = 1 then oneToks else flatTokens q ++ [plural]) := by
  by_cases h1 : q = 1
  · simp only [if_pos h1]
    exact Or.inr ⟨by simp, honene, by
      rw [show joinSp [one] = one from rfl, hone]⟩
  · have h2 : 1 < q := by omega
    simp only [if_neg h1, if_pos h2]
    refine Or.inr ⟨by simp, by simp, ?_⟩
    rw [show joinSp [number_to_bulgarian_words q ++ (" " ++ plural)] =
        number_to_bulgarian_words q ++ (" " ++ plural) from rfl]
    rw [joinSp_append (flatTokens q) [plural] (flatTokens_ne_nil q hq) (by simp)]
    rw [ihq, show joinSp [plural] = plural from rfl, String.append_assoc]

/-- Spelling of the tens/units block: the single words entry
`"tw i uw"` corresponds to the three tokens `tw`, `i`, `uw`. -/
theorem tens_JCorr (w : Nat) :
    JCorr
      (if 0 < w then
        if w < 20 && (bgd w).isSome then
          match bgd w with
          | some t => [t]
          | none => []
        else
          match bgd (w / 10 * 10) with
          | some tw =>
            if w % 10 = 0 then [tw]
            else
              match bgd (w % 10) with
              | some uw => [tw ++ " i " ++ uw]
              | none => []
          | none => []
       else [])
      (tensUnitsTokens w) := by
  rw [tensUnitsTokens]
  split
  · split
    · exact JCorr.refl _
    · split
      · split
        · exact JCorr.refl _
        · split
          · refine Or.inr ⟨by simp, by simp, ?_⟩
            rw [show ∀ a : String, joinSp [a] = a from fun _ => rfl]
            exact splitIWord _ _
          · exact JCorr.refl _
      · exact JCorr.refl _
  · exact JCorr.refl _

/-- Bridge between the program's `number_to_bulgarian_words` and the
flat token sequence `flatTokens`: the produced string is the
space-join of the tokens. -/
theorem n2bw_eq_joinSp_flat :
    ∀ n, number_to_bulgarian_words n = joinSp (flatTokens n) := by
  intro n
  induction n using Nat.strong_induction_on with
  | _ n ih =>
  by_cases h0 : n = 0
  · subst h0
    rw [number_to_bulgarian_words, flatTokens]
    rfl
  · rw [number_to_bulgarian_words, flatTokens]
    simp only [if_neg h0, dite_eq_ite]
    have e1 : (if 1000000000 ≤ n then n % 1000000000 else n) = n % 1000000000 := by
      split <;> omega
    rw [e1]
    have e2 : (if 1000000 ≤ n % 1000000000 then n % 1000000000 % 1000000
        else n % 1000000000) = n % 1000000 := by
      split <;> omega
    rw [e2]
    have e3 : (if 1000 ≤ n % 1000000 then n % 1000000 % 1000
        else n % 1000000) = n % 1000 := by
      split <;> omega
    rw [e3]
    have e4 : (if 100 ≤ n % 1000 then n % 1000 % 100 else n % 1000) = n % 100 := by
      split <;> omega
    rw [e4]
    apply joinSp_JCorr
    rw [smallTokens, show n % 1000 % 100 = n % 100 by omega, ← List.append_assoc]
    have bC : JCorr
        (if 1000000000 ≤ n then
          if n / 1000000000 = 1 then ["edin miliard"]
          else if 1 < n / 1000000000 then
            [number_to_bulgarian_words (n / 1000000000) ++ " miliarda"]
          else []
         else [])
        (if 1000000000 ≤ n then
          if n / 1000000000 = 1 then ["edin", "miliard"]
          else flatTokens (n / 1000000000) ++ ["miliarda"]
         else []) := by
      by_cases hb : 1000000000 ≤ n
      · simp only [if_pos hb]
        rw [show (" miliarda" : String) = " " ++ "miliarda" from rfl]
        exact group_JCorr (n / 1000000000) (by omega) "edin miliard" "miliarda"
          ["edin", "miliard"] rfl (by simp) (ih _ (by omega))
      · simp only [if_neg hb]
        exact JCorr.refl []
    have mC : JCorr
        (if 1000000 ≤ n % 1000000000 then
          if n % 1000000000 / 1000000 = 1 then ["edin milion"]
          else if 1 < n % 1000000000 / 1000000 then
            [number_to_bulgarian_words (n % 1000000000 / 1000000) ++ " miliona"]
          else []
         else [])
        (if 1000000 ≤ n % 1000000000 then
          if n % 1000000000 / 1000000 = 1 then ["edin", "milion"]
          else flatTokens (n % 1000000000 / 1000000) ++ ["miliona"]
         else []) := by
      by_cases hm : 1000000 ≤ n % 1000000000
      · simp only [if_pos hm]
        rw [show (" miliona" : String) = " " ++ "miliona" from rfl]
        exact group_JCorr (n % 1000000000 / 1000000) (by omega) "edin milion"
          "miliona" ["edin", "milion"] rfl (by simp) (ih _ (by omega))
      · simp only [if_neg hm]
        exact JCorr.refl []
    have tC : JCorr
        (if 1000 ≤ n % 1000000 then
          if n % 1000000 / 1000 = 1 then ["hilyada"]
          else if 1 < n % 1000000 / 1000 then
            [number_to_bulgarian_words (n % 1000000 / 1000) ++ " hilyadi"]
          else []
         else [])
        (if 1000 ≤ n % 1000000 then
          if n % 1000000 / 1000 = 1 then ["hilyada"]
          else flatTokens (n % 1000000 / 1000) ++ ["hilyadi"]
         else []) := by
      by_cases ht : 1000 ≤ n % 1000000
      · simp only [if_pos ht]
        rw [show (" hilyadi" : String) = " " ++ "hilyadi" from rfl]
        exact group_JCorr (n % 1000000 / 1000) (by omega) "hilyada"
          "hilyadi" ["hilyada"] rfl (by simp) (ih _ (by omega))
      · simp only [if_neg ht]
        exact JCorr.refl []
    exact JCorr.append
      (JCorr.append (JCorr.append (JCorr.append bC mC) tC) (JCorr.refl _))
      (tens_JCorr (n % 100))

theorem tokenize_ne_nil (cs : List Char) : tokenize cs ≠ [] := by
  cases cs with
  | nil => simp [tokenize]
  | cons c cs =>
    rw [tokenize]
    split
    · simp
    · split <;> simp

theorem tokenize_nospace (cs : List Char) (h : ' ' ∉ cs) :
    tokenize cs = [cs] := by
  induction cs with
  | nil => rfl
  | cons c cs ih =>
    rw [tokenize, if_neg (by simp at h; exact fun hc => h.1 hc.symm)]
    rw [ih (by simp at h; exact h.2)]

theorem tokenize_word (w rest : List Char) (h : ' ' ∉ w) :
    tokenize (w ++ ' ' :: rest) = w :: tokenize rest := by
  induction w with
  | nil => simp [tokenize]
  | cons c w ih =>
    rw [List.cons_append, tokenize,
      if_neg (by simp at h; exact fun hc => h.1 hc.symm)]
    rw [ih (by simp at h; exact h.2)]

theorem wordTokens_joinSp : ∀ ws : List String, ws ≠ [] →
    (∀ w ∈ ws, ' ' ∉ w.data) → wordTokens (joinSp ws) = ws := by
  intro ws
  induction ws with
  | nil => intro h; exact absurd rfl h
  | cons w ws ih =>
    intro _ hsp
    cases ws with
    | nil =>
      rw [show joinSp [w] = w from rfl, wordTokens,
        tokenize_nospace w.data (hsp w (by simp))]
      rfl
    | cons w2 ws2 =>
      rw [joinSp_cons w (w2 :: ws2) (by simp), wordTokens]
      have hdata : (w ++ " " ++ joinSp (w2 :: ws2)).data =
          w.data ++ ' ' :: (joinSp (w2 :: ws2)).data := by
        rw [String.data_append, String.data_append]
        simp [show (" " : String).data = [' '] from rfl]
      rw [hdata, tokenize_word w.data _ (hsp w (by simp))]
      have := ih (by simp) (fun x hx => hsp x (by simp [hx]))
      rw [wordTokens] at this
      simp only [List.map_cons, this]

theorem smallTokens_wf :
    ∀ r, r < 1000 → ∀ t ∈ smallTokens r, t.data ≠ [] ∧ ' ' ∉ t.data := by
  decide

theorem flatTokens_wf :
    ∀ n, ∀ t ∈ flatTokens n, t.data ≠ [] ∧ ' ' ∉ t.data := by
  intro n
  induction n using Nat.strong_induction_on with
  | _ n ih =>
  intro t ht
  rw [flatTokens] at ht
  by_cases h0 : n = 0
  · rw [if_pos h0] at ht
    simp at ht
    subst ht
    exact ⟨by decide, by decide⟩
  · rw [if_neg h0] at ht
    rw [List.mem_append] at ht
    rcases ht with ht | hts
    · rw [List.mem_append] at ht
      rcases ht with ht | htt
      · rw [List.mem_append] at ht
        rcases ht with htb | htm
        · split at htb
          · split at htb
            · simp at htb
              rcases htb with rfl | rfl <;> exact ⟨by decide, by decide⟩
            · rw [List.mem_append] at htb
              rcases htb with h | h
              · exact ih _ (by omega) t h
              · simp at h
                subst h
                exact ⟨by decide, by decide⟩
          · simp at htb
        · split at htm
          · split at htm
            · simp at htm
              rcases htm with rfl | rfl <;> exact ⟨by decide, by decide⟩
            · rw [List.mem_append] at htm
              rcases htm with h | h
              · exact ih _ (by omega) t h
              · simp at h
                subst h
                exact ⟨by decide, by decide⟩
          · simp at htm
      · split at htt
        · split at htt
          · simp at htt
            subst htt
            exact ⟨by decide, by decide⟩
          · rw [List.mem_append] at htt
            rcases htt with h | h
            · exact ih _ (by omega) t h
            · simp at h
              subst h
              exact ⟨by decide, by decide⟩
        · simp at htt
    · exact smallTokens_wf (n % 1000) (by omega) t hts

theorem flatTokens_small (r : Nat) (h1 : 1 ≤ r) (h2 : r < 1000) :
    flatTokens r = smallTokens r := by
  rw [flatTokens]
  rw [if_neg (show ¬r = 0 by omega), dif_neg (show ¬1000000000 ≤ r by omega),
    dif_neg (show ¬1000000 ≤ r % 1000000000 by omega),
    dif_neg (show ¬1000 ≤ r % 1000000 by omega)]
  simp [show r % 1000 = r by omega]

theorem lk_teen : ∀ w, w < 20 → 1 ≤ w →
    (bgd w).isSome ∧ (bgd w).bind lookupTeen = some w ∧
    (bgd w).bind lookupHund = none ∧ (bgd w).bind lookupTens = none := by
  decide

theorem lk_tens : ∀ w, w < 100 → 20 ≤ w → w % 10 = 0 →
    (bgd w).isSome ∧ (bgd w).bind lookupTens = some w ∧
    (bgd w).bind lookupTeen = none ∧ (bgd w).bind lookupHund = none := by
  decide

theorem lk_unit : ∀ u, u < 10 → 1 ≤ u →
    (bgd u).bind lookupUnit = some u := by
  decide

theorem lk_hund : ∀ h, h < 10 → 1 ≤ h →
    (hundredsTbl h).isSome ∧ (hundredsTbl h).bind lookupHund = some h ∧
    (hundredsTbl h).bind lookupTeen = none ∧
    (hundredsTbl h).bind lookupTens = none := by
  decide

theorem tu_no_hund : ∀ w, w < 100 → ∀ t ∈ tensUnitsTokens w,
    lookupHund t = none := by
  decide

theorem small_no_nula : ∀ q, q < 1000 → "nula" ∉ smallTokens q := by
  decide

theorem small_no_edin : ∀ q, q < 1000 → "edin" ∉ smallTokens q := by
  decide

theorem small_no_hilyada : ∀ q, q < 1000 → "hilyada" ∉ smallTokens q := by
  decide

theorem stop_miliona : stopTok "miliona" := by
  refine ⟨rfl, rfl, rfl, by decide⟩

theorem stop_hilyadi : stopTok "hilyadi" := by
  refine ⟨rfl, rfl, rfl, by decide⟩

theorem stop_hilyada : stopTok "hilyada" := by
  refine ⟨rfl, rfl, rfl, by decide⟩

theorem tu_ne_nil : ∀ w, w < 100 → 1 ≤ w → tensUnitsTokens w ≠ [] := by
  decide

theorem parseTU_correct : ∀ w, w < 100 → ∀ rest, stopRest rest →
    parseTU (tensUnitsTokens w ++ rest) = (w, rest) := by
  intro w hw rest hrest
  by_cases h0 : w = 0
  · subst h0
    rw [show tensUnitsTokens 0 = [] from rfl, List.nil_append]
    cases rest with
    | nil => rfl
    | cons t ts =>
      obtain ⟨_, hteen, htens, _⟩ := hrest
      simp [parseTU, hteen, htens]
  · by_cases h19 : w < 20
    · obtain ⟨hs, hbind, _, _⟩ := lk_teen w h19 (by omega)
      cases hb : bgd w with
      | none => rw [hb] at hs; simp at hs
      | some t =>
        rw [hb] at hbind
        simp only [Option.some_bind] at hbind
        have htoks : tensUnitsTokens w = [t] := by
          rw [tensUnitsTokens, if_pos (show 0 < w by omega), hb]
          simp [h19]
        rw [htoks]
        simp [parseTU, hbind]
    · have h20 : 20 ≤ w := by omega
      obtain ⟨hs, hbindT, hbindTeen, _⟩ :=
        lk_tens (w / 10 * 10) (by omega) (by omega) (by omega)
      cases hb : bgd (w / 10 * 10) with
      | none => rw [hb] at hs; simp at hs
      | some tw =>
        rw [hb] at hbindT hbindTeen
        simp only [Option.some_bind] at hbindT hbindTeen
        by_cases hu : w % 10 = 0
        · have htoks : tensUnitsTokens w = [tw] := by
            rw [tensUnitsTokens, if_pos (show 0 < w by omega),
              if_neg (by simp [show ¬w < 20 by omega]), hb]
            simp [hu]
          rw [htoks]
          cases rest with
          | nil =>
            simp [parseTU, hbindTeen, hbindT]
            omega
          | cons t2 ts =>
            obtain ⟨_, _, _, hi⟩ := hrest
            simp [parseTU, hbindTeen, hbindT, hi]
            omega
        · obtain hfu := lk_unit (w % 10) (by omega) (by omega)
          cases hbu : bgd (w % 10) with
          | none => rw [hbu] at hfu; simp at hfu
          | some uw =>
            rw [hbu] at hfu
            simp only [Option.some_bind] at hfu
            have htoks : tensUnitsTokens w = [tw, "i", uw] := by
              rw [tensUnitsTokens, if_pos (show 0 < w by omega),
                if_neg (by simp [show ¬w < 20 by omega]), hb]
              simp [hu, hbu]
            rw [htoks]
            simp [parseTU, hbindTeen, hbindT, hfu]
            omega

theorem parseSmall_nil : parseSmall [] = (0, []) := rfl

theorem parseSmall_stop (t : String) (ts : List String) (h : stopTok t) :
    parseSmall (t :: ts) = (0, t :: ts) := by
  obtain ⟨hh, hteen, htens, _⟩ := h
  simp [parseSmall, parseHund, parseTU, hh, hteen, htens]

theorem parseSmall_correct : ∀ r, r < 1000 → ∀ rest, stopRest rest →
    parseSmall (smallTokens r ++ rest) = (r, rest) := by
  intro r hr rest hrest
  by_cases hh : 100 ≤ r
  · obtain ⟨hs, hbH, _, _⟩ := lk_hund (r / 100) (by omega) (by omega)
    cases hbt : hundredsTbl (r / 100) with
    | none => rw [hbt] at hs; simp at hs
    | some hw =>
      rw [hbt] at hbH
      simp only [Option.some_bind] at hbH
      have hsm : smallTokens r = hw :: tensUnitsTokens (r % 100) := by
        rw [smallTokens, if_pos hh, hbt]
        rfl
      rw [hsm]
      have hph : parseHund (hw :: (tensUnitsTokens (r % 100) ++ rest)) =
          (r / 100 * 100, tensUnitsTokens (r % 100) ++ rest) := by
        simp [parseHund, hbH]
      have hptu := parseTU_correct (r % 100) (by omega) rest hrest
      simp only [parseSmall, List.cons_append, hph, hptu]
      have : r / 100 * 100 + r % 100 = r := by omega
      rw [this]
  · have hsm : smallTokens r = tensUnitsTokens r := by
      rw [smallTokens, if_neg hh, show r % 100 = r by omega]
      rfl
    rw [hsm]
    cases htu : tensUnitsTokens r with
    | nil =>
      by_cases hr0 : r = 0
      · subst hr0
        rw [List.nil_append]
        cases rest with
        | nil => rfl
        | cons t ts => exact parseSmall_stop t ts hrest
      · exact absurd htu (tu_ne_nil r (by omega) (by omega))
    | cons t ts =>
      have hmem : t ∈ tensUnitsTokens r := by rw [htu]; simp
      have hth : lookupHund t = none := tu_no_hund r (by omega) t hmem
      have hptu := parseTU_correct r (by omega) rest hrest
      rw [htu] at hptu
      simp only [List.cons_append] at hptu
      simp only [parseSmall, List.cons_append, parseHund, hth, hptu]
      simp

theorem parseThousands_correct : ∀ tq r, tq < 1000 → r < 1000 →
    parseThousands (thouTokens tq ++ smallTokens r) = (tq, smallTokens r) := by
  intro tq r htq hr
  by_cases h0 : tq = 0
  · subst h0
    rw [thouTokens, if_pos rfl, List.nil_append, parseThousands]
    have hhead : ¬(smallTokens r).head? = some "hilyada" := by
      cases hs : smallTokens r with
      | nil => simp
      | cons t ts =>
        simp only [List.head?_cons, Option.some.injEq]
        intro h
        exact small_no_hilyada r hr (by rw [hs, h]; simp)
    rw [if_neg hhead]
    have hps := parseSmall_correct r hr [] trivial
    rw [List.append_nil] at hps
    simp [hps]
  · by_cases h1 : tq = 1
    · subst h1
      rw [thouTokens, if_neg h0, if_pos rfl]
      rw [parseThousands]
      simp
    · have h2 : 2 ≤ tq := by omega
      rw [thouTokens, if_neg h0, if_neg h1, List.append_assoc,
        List.singleton_append, parseThousands]
      have hne := smallTokens_ne_nil tq htq (by omega)
      have hhead : ¬(smallTokens tq ++ "hilyadi" :: smallTokens r).head? =
          some "hilyada" := by
        cases hs : smallTokens tq with
        | nil => exact absurd hs hne
        | cons t ts =>
          simp only [List.cons_append, List.head?_cons, Option.some.injEq]
          intro h
          exact small_no_hilyada tq htq (by rw [hs, h]; simp)
      rw [if_neg hhead]
      have hps := parseSmall_correct tq htq ("hilyadi" :: smallTokens r)
        stop_hilyadi
      simp [hps]

theorem parseSmall_thou : ∀ tq r, tq < 1000 → r < 1000 →
    (parseSmall (thouTokens tq ++ smallTokens r)).2.head? ≠ some "miliona" ∧
    ∀ t, (thouTokens tq ++ smallTokens r).head? = some t → t ≠ "edin" := by
  intro tq r htq hr
  by_cases h0 : tq = 0
  · subst h0
    rw [thouTokens, if_pos rfl, List.nil_append]
    constructor
    · have hps := parseSmall_correct r hr [] trivial
      rw [List.append_nil] at hps
      rw [hps]
      simp
    · intro t ht hedin
      subst hedin
      cases hs : smallTokens r with
      | nil => rw [hs] at ht; simp at ht
      | cons t0 ts =>
        rw [hs] at ht
        simp at ht
        exact small_no_edin r hr (by rw [hs, ht]; simp)
  · by_cases h1 : tq = 1
    · subst h1
      rw [thouTokens, if_neg h0, if_pos rfl, List.singleton_append]
      constructor
      · rw [parseSmall_stop "hilyada" (smallTokens r) stop_hilyada]
        simp
      · intro t ht
        simp at ht
        subst ht
        decide
    · have h2 : 2 ≤ tq := by omega
      rw [thouTokens, if_neg h0, if_neg h1, List.append_assoc,
        List.singleton_append]
      constructor
      · rw [parseSmall_correct tq htq ("hilyadi" :: smallTokens r) stop_hilyadi]
        simp
      · intro t ht hedin
        subst hedin
        cases hs : smallTokens tq with
        | nil => exact absurd hs (smallTokens_ne_nil tq htq (by omega))
        | cons t0 ts =>
          rw [hs] at ht
          simp at ht
          exact small_no_edin tq htq (by rw [hs, ht]; simp)

theorem parseMillions_correct : ∀ mq tq r, mq < 1000 → tq < 1000 → r < 1000 →
    parseMillions (millTokens mq ++ (thouTokens tq ++ smallTokens r)) =
      (mq, thouTokens tq ++ smallTokens r) := by
  intro mq tq r hmq htq hr
  obtain ⟨hnomil, hnoedin⟩ := parseSmall_thou tq r htq hr
  by_cases h0 : mq = 0
  · subst h0
    rw [millTokens, if_pos rfl, List.nil_append, parseMillions]
    have htake : ¬(thouTokens tq ++ smallTokens r).take 2 = ["edin", "milion"] := by
      cases hs : thouTokens tq ++ smallTokens r with
      | nil => simp
      | cons t ts =>
        intro hc
        simp only [List.take_succ_cons] at hc
        have : t = "edin" := (List.cons.inj hc).1
        exact hnoedin t (by rw [hs]; rfl) this
    rw [if_neg htake, if_neg hnomil]
  · by_cases h1 : mq = 1
    · subst h1
      rw [millTokens, if_neg h0, if_pos rfl, parseMillions]
      simp
    · have h2 : 2 ≤ mq := by omega
      rw [millTokens, if_neg h0, if_neg h1, List.append_assoc,
        List.singleton_append, parseMillions]
      have hne := smallTokens_ne_nil mq hmq (by omega)
      have htake : ¬(smallTokens mq ++
          "miliona" :: (thouTokens tq ++ smallTokens r)).take 2 =
          ["edin", "milion"] := by
        cases hs : smallTokens mq with
        | nil => exact absurd hs hne
        | cons t ts =>
          simp only [List.cons_append, List.take_succ_cons]
          intro hc
          have : t = "edin" := (List.cons.inj hc).1
          exact small_no_edin mq hmq (by rw [hs, this]; simp)
      rw [if_neg htake]
      have hps := parseSmall_correct mq hmq
        ("miliona" :: (thouTokens tq ++ smallTokens r)) stop_miliona
      simp [hps]

theorem flatTokens_decompose (n : Nat) (h1 : 1 ≤ n) (h2 : n < 1000000000) :
    flatTokens n = millTokens (n / 1000000) ++
      (thouTokens (n % 1000000 / 1000) ++ smallTokens (n % 1000)) := by
  rw [flatTokens, if_neg (show ¬n = 0 by omega),
    dif_neg (show ¬1000000000 ≤ n by omega),
    show n % 1000000000 = n from by omega, List.nil_append, List.append_assoc]
  congr 1
  · rw [millTokens]
    by_cases hm : 1000000 ≤ n
    · rw [dif_pos hm, if_neg (show ¬n / 1000000 = 0 by omega)]
      by_cases hq1 : n / 1000000 = 1
      · rw [if_pos hq1, if_pos hq1]
      · rw [if_neg hq1, if_neg hq1,
          flatTokens_small (n / 1000000) (by omega) (by omega)]
    · rw [dif_neg hm, if_pos (show n / 1000000 = 0 by omega)]
  · congr 1
    rw [thouTokens]
    by_cases ht : 1000 ≤ n % 1000000
    · rw [dif_pos ht, if_neg (show ¬n % 1000000 / 1000 = 0 by omega)]
      by_cases hq1 : n % 1000000 / 1000 = 1
      · rw [if_pos hq1, if_pos hq1]
      · rw [if_neg hq1, if_neg hq1,
          flatTokens_small (n % 1000000 / 1000) (by omega) (by omega)]
    · rw [dif_neg ht, if_pos (show n % 1000000 / 1000 = 0 by omega)]

theorem mill_no_nula : ∀ q, q < 1000 → "nula" ∉ millTokens q := by
  intro q hq
  rw [millTokens]
  split
  · simp
  · split
    · decide
    · intro hmem
      rw [List.mem_append] at hmem
      rcases hmem with h | h
      · exact small_no_nula q hq h
      · simp at h

theorem thou_no_nula : ∀ q, q < 1000 → "nula" ∉ thouTokens q := by
  intro q hq
  rw [thouTokens]
  split
  · simp
  · split
    · decide
    · intro hmem
      rw [List.mem_append] at hmem
      rcases hmem with h | h
      · exact small_no_nula q hq h
      · simp at h

theorem parseTokens_flat : ∀ n, n < 1000000000 →
    parseTokens (flatTokens n) = some n := by
  intro n hn
  by_cases h0 : n = 0
  · subst h0
    rw [show flatTokens 0 = ["nula"] from by rw [flatTokens]; rfl]
    rfl
  · rw [flatTokens_decompose n (by omega) hn]
    have hnn : millTokens (n / 1000000) ++
        (thouTokens (n % 1000000 / 1000) ++ smallTokens (n % 1000)) ≠
        ["nula"] := by
      intro hc
      have hmem : "nula" ∈ millTokens (n / 1000000) ++
          (thouTokens (n % 1000000 / 1000) ++ smallTokens (n % 1000)) := by
        rw [hc]
        simp
      rw [List.mem_append, List.mem_append] at hmem
      rcases hmem with h | h | h
      · exact mill_no_nula (n / 1000000) (by omega) h
      · exact thou_no_nula (n % 1000000 / 1000) (by omega) h
      · exact small_no_nula (n % 1000) (by omega) h
    rw [parseTokens, if_neg hnn]
    have hpm := parseMillions_correct (n / 1000000) (n % 1000000 / 1000)
      (n % 1000) (by omega) (by omega) (by omega)
    have hpt := parseThousands_correct (n % 1000000 / 1000) (n % 1000)
      (by omega) (by omega)
    have hps := parseSmall_correct (n % 1000) (by omega) [] trivial
    rw [List.append_nil] at hps
    simp only [hpm, hpt, hps]
    have harith : n / 1000000 * 1000000 + n % 1000000 / 1000 * 1000 + n % 1000 = n := by
      omega
    simp [harith]

/-- Round trip of the Numeral Decomposer through the words-to-number
oracle, on the token level lifted to strings. -/
theorem n2bw_roundtrip : ∀ n, n < 1000000000 →
    wordsToNumber (number_to_bulgarian_words n) = some n := by
  intro n hn
  rw [wordsToNumber, n2bw_eq_joinSp_flat]
  have hne : flatTokens n ≠ [] := by
    by_cases h0 : n = 0
    · subst h0
      rw [show flatTokens 0 = ["nula"] from by rw [flatTokens]; rfl]
      simp
    · exact flatTokens_ne_nil n (by omega)
  rw [wordTokens_joinSp (flatTokens n) hne
    (fun t ht => (flatTokens_wf n t ht).2)]
  exact parseTokens_flat n hn

theorem dictInsert_keys (k : String) (v : Json) :
    ∀ result : JsonEntries, k ∉ result.keys →
      (dictInsert result k v).keys = result.keys ++ [k]
  | .nil, _ => rfl
  | .cons k0 v0 rest, h => by
    have hk0 : ¬k0 = k := by
      intro hc
      exact h (by simp [JsonEntries.keys, hc])
    simp only [dictInsert, if_neg hk0, JsonEntries.keys]
    rw [dictInsert_keys k v rest (fun hm => h (by simp [JsonEntries.keys, hm]))]
    simp

theorem dictInsert_shape (k : String) (v : Json) :
    ∀ result : JsonEntries, k ∉ result.keys →
      shapeEntries (dictInsert result k v) = shapeEntries result ++ [shape v]
  | .nil, _ => rfl
  | .cons k0 v0 rest, h => by
    have hk0 : ¬k0 = k := by
      intro hc
      exact h (by simp [JsonEntries.keys, hc])
    simp only [dictInsert, if_neg hk0, shapeEntries]
    rw [dictInsert_shape k v rest (fun hm => h (by simp [JsonEntries.keys, hm]))]
    simp

theorem tKeys_cons (tr : String → String) (key : String) (value : Json)
    (rest : JsonEntries) :
    tKeys tr (.cons key value rest) = translate_text tr key :: tKeys tr rest := rfl

mutual

theorem shape_ppi (tr : String → String) :
    ∀ t, noCollide tr t → shape (process_property_item tr t) = shape t
  | .str _ => fun _ => rfl
  | .num _ => fun _ => rfl
  | .bool _ => fun _ => rfl
  | .null => fun _ => rfl
  | .obj entries => fun h => by
    simp only [noCollide] at h
    simp only [process_property_item, shape]
    rw [shape_processEntries tr entries .nil (by simpa using h.1) h.2]
    rfl
  | .arr items => fun h => by
    simp only [noCollide] at h
    simp only [process_property_item, shape]
    rw [shape_processItems tr items h]

theorem shape_processEntries (tr : String → String) :
    ∀ entries result, (result.keys ++ tKeys tr entries).Nodup →
      noCollideEntries tr entries →
      shapeEntries (processEntries tr entries result) =
        shapeEntries result ++ shapeEntries entries
  | .nil => fun result _ _ => by
    simp [processEntries, shapeEntries]
  | .cons key value rest => fun result h1 h2 => by
    simp only [noCollideEntries] at h2
    simp only [processEntries]
    rw [tKeys_cons] at h1
    have htk : translate_text tr key ∉ result.keys := by
      intro hmem
      exact (List.nodup_append.mp h1).2.2 hmem (by simp)
    have hnew : ((dictInsert result (translate_text tr key)
        (processDictValue tr value)).keys ++ tKeys tr rest).Nodup := by
      rw [dictInsert_keys _ _ result htk]
      rw [List.append_cons] at h1
      exact h1
    rw [shape_processEntries tr rest _ hnew h2.2]
    rw [dictInsert_shape _ _ result htk]
    rw [shape_processDictValue tr value h2.1]
    simp [shapeEntries]

theorem shape_processDictValue (tr : String → String) :
    ∀ v, noCollide tr v → shape (processDictValue tr v) = shape v
  | .str _ => fun _ => rfl
  | .num _ => fun _ => rfl
  | .bool _ => fun _ => rfl
  | .null => fun _ => rfl
  | .obj entries => fun h => by
    simp only [noCollide] at h
    simp only [processDictValue, shape]
    rw [shape_processEntries tr entries .nil (by simpa using h.1) h.2]
    rfl
  | .arr items => fun h => by
    simp only [noCollide] at h
    simp only [processDictValue, shape]
    rw [shape_processItems tr items h]

theorem shape_processItems (tr : String → String) :
    ∀ items, noCollideItems tr items →
      shapeItems (processItems tr items) = shapeItems items
  | .nil => fun _ => rfl
  | .cons v rest => fun h => by
    simp only [noCollideItems] at h
    simp only [processItems, shapeItems]
    rw [shape_ppi tr v h.1, shape_processItems tr rest h.2]

end

theorem shape_topEntries (tr : String → String) :
    ∀ entries result, (result.keys ++ tKeys tr entries).Nodup →
      noCollideEntries tr entries →
      shapeEntries (translateTopEntries tr entries result) =
        shapeEntries result ++ shapeEntries entries
  | .nil, result, _, _ => by
    simp [translateTopEntries, shapeEntries]
  | .cons key value rest, result, h1, h2 => by
    simp only [noCollideEntries] at h2
    simp only [translateTopEntries]
    rw [tKeys_cons] at h1
    have htk : translate_text tr key ∉ result.keys := by
      intro hmem
      exact (List.nodup_append.mp h1).2.2 hmem (by simp)
    have h1' := h1
    rw [List.append_cons] at h1'
    cases value with
    | obj entries2 =>
      have hnew : ((dictInsert result (translate_text tr key)
          (process_property_item tr (.obj entries2))).keys ++
          tKeys tr rest).Nodup := by
        rw [dictInsert_keys _ _ result htk]
        exact h1'
      rw [shape_topEntries tr rest _ hnew h2.2,
        dictInsert_shape _ _ result htk, shape_ppi tr (.obj entries2) h2.1]
      simp [shapeEntries]
    | arr items2 =>
      have hnew : ((dictInsert result (translate_text tr key)
          (Json.arr (processItems tr items2))).keys ++
          tKeys tr rest).Nodup := by
        rw [dictInsert_keys _ _ result htk]
        exact h1'
      rw [shape_topEntries tr rest _ hnew h2.2,
        dictInsert_shape _ _ result htk]
      have : shape (Json.arr (processItems tr items2)) =
          shape (Json.arr items2) := by
        simp only [shape]
        rw [shape_processItems tr items2 h2.1]
      rw [this]
      simp [shapeEntries]
    | str s =>
      have hnew : ((dictInsert result (translate_text tr key)
          (Json.str (translate_text tr (pyStr (Json.str s))))).keys ++
          tKeys tr rest).Nodup := by
        rw [dictInsert_keys _ _ result htk]
        exact h1'
      rw [shape_topEntries tr rest _ hnew h2.2,
        dictInsert_shape _ _ result htk]
      simp [shapeEntries, shape]
    | num n =>
      have hnew : ((dictInsert result (translate_text tr key)
          (Json.str (translate_text tr (pyStr (Json.num n))))).keys ++
          tKeys tr rest).Nodup := by
        rw [dictInsert_keys _ _ result htk]
        exact h1'
      rw [shape_topEntries tr rest _ hnew h2.2,
        dictInsert_shape _ _ result htk]
      simp [shapeEntries, shape]
    | bool b =>
      have hnew : ((dictInsert result (translate_text tr key)
          (Json.str (translate_text tr (pyStr (Json.bool b))))).keys ++
          tKeys tr rest).Nodup := by
        rw [dictInsert_keys _ _ result htk]
        exact h1'
      rw [shape_topEntries tr rest _ hnew h2.2,
        dictInsert_shape _ _ result htk]
      simp [shapeEntries, shape]
    | null =>
      have hnew : ((dictInsert result (translate_text tr key)
          (Json.str (translate_text tr (pyStr Json.null)))).keys ++
          tKeys tr rest).Nodup := by
        rw [dictInsert_keys _ _ result htk]
        exact h1'
      rw [shape_topEntries tr rest _ hnew h2.2,
        dictInsert_shape _ _ result htk]
      simp [shapeEntries, shape]

theorem push_toList : ∀ (acc : JsonItems) (x : Json),
    (acc.push x).toList = acc.toList ++ [x]
  | .nil, _ => rfl
  | .cons v rest, x => by
    simp [JsonItems.push, JsonItems.toList, push_toList rest x]

theorem property_like_iff (tr : String → String) :
    ∀ entries : JsonEntries, property_like tr entries = true ↔
      ∃ p ∈ entries.toList, translate_text tr (pyLower p.1) ∈
        (["district", "type", "area", "price"] : List String)
  | .nil => by simp [property_like, JsonEntries.toList]
  | .cons key v rest => by
    rw [property_like, Bool.or_eq_true, property_like_iff tr rest]
    constructor
    · rintro (h | ⟨p, hp, hm⟩)
      · exact ⟨(key, v), by simp [JsonEntries.toList], by simpa using h⟩
      · exact ⟨p, by simp [JsonEntries.toList, hp], hm⟩
    · rintro ⟨p, hp, hm⟩
      rw [JsonEntries.toList] at hp
      rcases List.mem_cons.mp hp with hp | hp
      · subst hp
        exact Or.inl (by simpa using hm)
      · exact Or.inr ⟨p, hp, hm⟩

mutual

theorem extract_mem (tr : String → String) :
    ∀ t acc x, x ∈ (extract_properties tr t acc).toList →
      x ∈ acc.toList ∨ isPropLike tr x
  | .str _ => fun _ _ h => Or.inl h
  | .num _ => fun _ _ h => Or.inl h
  | .bool _ => fun _ _ h => Or.inl h
  | .null => fun _ _ h => Or.inl h
  | .obj entries => fun acc x h => by
    simp only [extract_properties] at h
    split at h
    · rw [push_toList] at h
      rcases List.mem_append.mp h with h | h
      · exact Or.inl h
      · simp at h
        subst h
        rename_i hpl
        exact Or.inr hpl
    · exact extractValues_mem tr entries acc x h
  | .arr items => fun acc x h => by
    simp only [extract_properties] at h
    exact extractItems_mem tr items acc x h

theorem extractValues_mem (tr : String → String) :
    ∀ entries acc x, x ∈ (extractFromValues tr entries acc).toList →
      x ∈ acc.toList ∨ isPropLike tr x
  | .nil => fun _ _ h => Or.inl h
  | .cons _ v rest => fun acc x h => by
    simp only [extractFromValues] at h
    rcases extractValues_mem tr rest _ x h with h2 | h2
    · exact extract_mem tr v acc x h2
    · exact Or.inr h2

theorem extractItems_mem (tr : String → String) :
    ∀ items acc x, x ∈ (extractFromItems tr items acc).toList →
      x ∈ acc.toList ∨ isPropLike tr x
  | .nil => fun _ _ h => Or.inl h
  | .cons v rest => fun acc x h => by
    simp only [extractFromItems] at h
    rcases extractItems_mem tr rest _ x h with h2 | h2
    · exact extract_mem tr v acc x h2
    · exact Or.inr h2

end

theorem JsonEntries.append_nil : ∀ xs : JsonEntries, xs.append .nil = xs
  | .nil => rfl
  | .cons k v rest => by rw [JsonEntries.append, JsonEntries.append_nil rest]

theorem JsonEntries.append_keys : ∀ xs ys : JsonEntries,
    (xs.append ys).keys = xs.keys ++ ys.keys
  | .nil, ys => rfl
  | .cons k v rest, ys => by
    simp [JsonEntries.append, JsonEntries.keys, JsonEntries.append_keys rest ys]

theorem JsonEntries.append_assoc : ∀ xs ys zs : JsonEntries,
    (xs.append ys).append zs = xs.append (ys.append zs)
  | .nil, _, _ => rfl
  | .cons k v rest, ys, zs => by
    simp [JsonEntries.append, JsonEntries.append_assoc rest ys zs]

theorem dictInsert_fresh : ∀ (result : JsonEntries) (k : String) (v : Json),
    k ∉ result.keys → dictInsert result k v = result.append (.cons k v .nil)
  | .nil, _, _, _ => rfl
  | .cons k0 v0 rest, k, v, h => by
    have hk0 : ¬k0 = k := fun hc => h (by simp [JsonEntries.keys, hc])
    rw [dictInsert, if_neg hk0, JsonEntries.append,
      dictInsert_fresh rest k v (fun hm => h (by simp [JsonEntries.keys, hm]))]

theorem firstDigitRun_none : ∀ cs : List Char,
    (∀ c ∈ cs, ¬c.isDigit = true) → firstDigitRun cs = none
  | [], _ => rfl
  | c :: cs, h => by
    rw [firstDigitRun, if_neg (h c (by simp))]
    exact firstDigitRun_none cs (fun c2 hc2 => h c2 (by simp [hc2]))

theorem translate_id (s : String) : translate_text (fun x => x) s = s := by
  rw [translate_text]
  split <;> rfl

theorem extract_nodigits (s : String) (h : noDigits s) :
    extract_numeric_part s = (none, s) := by
  rw [extract_numeric_part]
  split
  · rfl
  · rw [firstDigitRun_none s.data h]

theorem psv_nodigits (tr : String → String) (s : String) (h : noDigits s) :
    process_string_value tr s = translate_text tr s := by
  rw [process_string_value, extract_nodigits s h]

mutual

theorem stable_ppi : ∀ t, Stable t →
    process_property_item (fun s => s) t = t
  | .str s => fun _ => by
    rw [process_property_item, translate_id]
  | .num _ => fun _ => rfl
  | .bool _ => fun _ => rfl
  | .null => fun _ => rfl
  | .obj entries => fun h => by
    rw [process_property_item]
    rw [stable_entries entries .nil (by simpa using h.1) h.2]
    rfl
  | .arr items => fun h => by
    rw [process_property_item, stable_items items h]

theorem stable_entries : ∀ entries result,
    (result.keys ++ entries.keys).Nodup → StableEntries entries →
    processEntries (fun s => s) entries result = result.append entries
  | .nil, result, _, _ => by
    rw [processEntries, JsonEntries.append_nil]
  | .cons key value rest, result, h1, h2 => by
    rw [JsonEntries.keys] at h1
    rw [processEntries, translate_id, stable_value value h2.1]
    have htk : key ∉ result.keys := by
      intro hmem
      exact (List.nodup_append.mp h1).2.2 hmem (by simp)
    rw [dictInsert_fresh result key value htk]
    rw [stable_entries rest (result.append (.cons key value .nil))
      (by
        rw [JsonEntries.append_keys]
        rw [List.append_cons] at h1
        simpa [JsonEntries.keys] using h1) h2.2]
    rw [JsonEntries.append_assoc]
    rfl

theorem stable_value : ∀ v, StableValue v →
    processDictValue (fun s => s) v = v
  | .str s => fun h => by
    rw [processDictValue, psv_nodigits _ s h, translate_id]
  | .obj entries => fun h => by
    rw [processDictValue]
    rw [stable_entries entries .nil (by simpa using h.1) h.2]
    rfl
  | .arr items => fun h => by
    rw [processDictValue, stable_items items h]
  | .num _ => fun h => absurd h (by simp [StableValue])
  | .bool _ => fun h => absurd h (by simp [StableValue])
  | .null => fun h => absurd h (by simp [StableValue])

theorem stable_items : ∀ items, StableItems items →
    processItems (fun s => s) items = items
  | .nil => fun _ => rfl
  | .cons v rest => fun h => by
    rw [processItems, stable_ppi v h.1, stable_items rest h.2]

end

theorem stable_topEntries : ∀ entries result,
    (result.keys ++ entries.keys).Nodup → StableEntries entries →
    translateTopEntries (fun s => s) entries result = result.append entries
  | .nil, result, _, _ => by
    rw [translateTopEntries, JsonEntries.append_nil]
  | .cons key value rest, result, h1, h2 => by
    rw [JsonEntries.keys] at h1
    have htk : key ∉ result.keys := by
      intro hmem
      exact (List.nodup_append.mp h1).2.2 hmem (by simp)
    have step : ∀ v2 : Json,
        translateTopEntries (fun s => s) rest (dictInsert result key v2) =
          result.append (.cons key v2 rest) := by
      intro v2
      rw [dictInsert_fresh result key v2 htk]
      rw [stable_topEntries rest (result.append (.cons key v2 .nil))
        (by
          rw [JsonEntries.append_keys]
          rw [List.append_cons] at h1
          simpa [JsonEntries.keys] using h1) h2.2]
      rw [JsonEntries.append_assoc]
      rfl
    cases value with
    | obj entries2 =>
      simp only [translateTopEntries, translate_id]
      rw [stable_ppi (.obj entries2) h2.1]
      exact step _
    | arr items2 =>
      simp only [translateTopEntries, translate_id]
      rw [stable_items items2 h2.1]
      exact step _
    | str s =>
      simp only [translateTopEntries, translate_id, pyStr]
      exact step _
    | num n => exact absurd h2.1 (by simp [StableValue])
    | bool b => exact absurd h2.1 (by simp [StableValue])
    | null => exact absurd h2.1 (by simp [StableValue])

theorem wordTokens_n2bw (n : Nat) :
    wordTokens (number_to_bulgarian_words n) = flatTokens n := by
  rw [n2bw_eq_joinSp_flat]
  have hne : flatTokens n ≠ [] := by
    by_cases h0 : n = 0
    · subst h0
      rw [show flatTokens 0 = ["nula"] from by rw [flatTokens]; rfl]
      simp
    · exact flatTokens_ne_nil n (by omega)
  exact wordTokens_joinSp (flatTokens n) hne
    (fun t ht => (flatTokens_wf n t ht).2)

theorem n2bw_small (r : Nat) (h1 : 1 ≤ r) (h2 : r < 1000) :
    number_to_bulgarian_words r = joinSp (smallTokens r) := by
  rw [n2bw_eq_joinSp_flat, flatTokens_small r h1 h2]

theorem n2bw_0 : number_to_bulgarian_words 0 = "nula" := by
  rw [number_to_bulgarian_words]
  rfl

theorem n2bw_5 : number_to_bulgarian_words 5 = "pet" := by
  rw [n2bw_small 5 (by omega) (by omega)]
  rfl

theorem n2bw_20 : number_to_bulgarian_words 20 = "dvadeset" := by
  rw [n2bw_small 20 (by omega) (by omega)]
  rfl

theorem n2bw_21 : number_to_bulgarian_words 21 = "dvadeset i edno" := by
  rw [n2bw_small 21 (by omega) (by omega)]
  rfl

theorem n2bw_100 : number_to_bulgarian_words 100 = "sto" := by
  rw [n2bw_small 100 (by omega) (by omega)]
  rfl

theorem n2bw_101 : number_to_bulgarian_words 101 = "sto edno" := by
  rw [n2bw_small 101 (by omega) (by omega)]
  rfl

theorem flatTokens_1000 : flatTokens 1000 = ["hilyada"] := by
  rw [flatTokens]
  norm_num
  rfl

theorem n2bw_1000 : number_to_bulgarian_words 1000 = "hilyada" := by
  rw [n2bw_eq_joinSp_flat, flatTokens_1000]
  rfl

theorem flatTokens_2000 : flatTokens 2000 = ["dve", "hilyadi"] := by
  rw [flatTokens]
  norm_num
  rw [flatTokens_small 2 (by omega) (by omega)]
  rfl

theorem n2bw_2000 : number_to_bulgarian_words 2000 = "dve hilyadi" := by
  rw [n2bw_eq_joinSp_flat, flatTokens_2000]
  rfl

theorem flatTokens_1e6 : flatTokens 1000000 = ["edin", "milion"] := by
  rw [flatTokens]
  norm_num
  rfl

theorem n2bw_1e6 : number_to_bulgarian_words 1000000 = "edin milion" := by
  rw [n2bw_eq_joinSp_flat, flatTokens_1e6]
  rfl

theorem flatTokens_1e9 : flatTokens 1000000000 = ["edin", "miliard"] := by
  rw [flatTokens]
  norm_num
  rfl

theorem n2bw_1e9 : number_to_bulgarian_words 1000000000 = "edin miliard" := by
  rw [n2bw_eq_joinSp_flat, flatTokens_1e9]
  rfl

theorem flatTokens_1e12 : flatTokens 1000000000000 = ["hilyada", "miliarda"] := by
  rw [flatTokens]
  norm_num
  rw [flatTokens_1000]
  rfl

theorem n2bw_1e12 :
    number_to_bulgarian_words 1000000000000 = "hilyada miliarda" := by
  rw [n2bw_eq_joinSp_flat, flatTokens_1e12]
  rfl

theorem conj_small : ∀ r, r < 1000 →
    (("i" ∈ smallTokens r) ↔ (20 ≤ r % 100 ∧ ¬r % 10 = 0)) := by
  decide

theorem joinSp_ne_empty : ∀ ws : List String, ws ≠ [] →
    (∀ w ∈ ws, w.data ≠ []) → joinSp ws ≠ "" := by
  intro ws
  match ws with
  | [] => intro h; exact absurd rfl h
  | [w] =>
    intro _ hw hc
    have hw0 : w = "" := hc
    exact hw w (by simp) (by rw [hw0])
  | w :: w2 :: ws2 =>
    intro _ _ hc
    have := congrArg String.data hc
    rw [joinSp_cons w (w2 :: ws2) (by simp)] at this
    simp [String.data_append, show (" " : String).data = [' '] from rfl] at this

/-- Claim C1 (amended): the Normalizer/Translator preserves tree shape
(container kind, cardinality, entry order) on every tree whose
translated keys are pairwise distinct within each mapping, both for
`process_property_item` on arbitrary trees and for `translate_data` on
non-empty mapping and sequence roots.  (As stated the claim fails:
`translate_data` collapses an empty sequence root to the empty mapping,
and colliding translated keys merge last-write-wins.) -/
theorem c1_shape_preservation : ∀ tr : String → String,
    (∀ t, noCollide tr t → shape (process_property_item tr t) = shape t) ∧
    (∀ entries, entries ≠ JsonEntries.nil → noCollide tr (Json.obj entries) →
      shape (translate_data tr (Json.obj entries)) = shape (Json.obj entries)) ∧
    (∀ items, items ≠ JsonItems.nil → noCollideItems tr items →
      shape (translate_data tr (Json.arr items)) = shape (Json.arr items)) := by
  intro tr
  refine ⟨shape_ppi tr, ?_, ?_⟩
  · intro entries hne h
    cases entries with
    | nil => exact absurd rfl hne
    | cons key v rest =>
      rw [translate_data]
      rw [if_neg (by rw [falsy]; simp)]
      simp only [noCollide] at h
      simp only [shape]
      rw [shape_topEntries tr (.cons key v rest) .nil (by simpa using h.1) h.2]
      rfl
  · intro items hne h
    cases items with
    | nil => exact absurd rfl hne
    | cons v rest =>
      rw [translate_data]
      rw [if_neg (by rw [falsy]; simp)]
      simp only [shape]
      rw [shape_processItems tr (.cons v rest) h]

/-- Witness for C1 at a one-entry mapping with the identity
capability. -/
theorem c1_witness :
    shape (process_property_item (fun s => s)
      (Json.obj (JsonEntries.cons "a" Json.null JsonEntries.nil))) =
      shape (Json.obj (JsonEntries.cons "a" Json.null JsonEntries.nil)) ∧
    shape (translate_data (fun s => s)
      (Json.obj (JsonEntries.cons "a" Json.null JsonEntries.nil))) =
      shape (Json.obj (JsonEntries.cons "a" Json.null JsonEntries.nil)) :=
  ⟨(c1_shape_preservation (fun s => s)).1 _ ⟨by decide, trivial, trivial⟩,
   (c1_shape_preservation (fun s => s)).2.1 _ (by simp)
     ⟨by decide, trivial, trivial⟩⟩

/-- Counterexample to C1 as stated: `translate_data` maps the empty
sequence to the empty mapping, changing the container kind. -/
theorem c1_counterexample :
    shape (translate_data (fun s => s) (Json.arr JsonItems.nil)) ≠
      shape (Json.arr JsonItems.nil) := by
  intro h
  exact Shape.noConfusion h

/-- Claim C2: for every integer 0 ≤ n < 10^9, the word sequence
produced by `number_to_bulgarian_words`, re-parsed by the
words-to-number oracle built from the inverses of the language tables
and the magnitude grouping, round-trips to n. -/
theorem c2_roundtrip : ∀ n : Nat, n < 1000000000 →
    wordsToNumber (number_to_bulgarian_words n) = some n :=
  n2bw_roundtrip

/-- Witness for C2 at n = 3435. -/
theorem c2_witness : 3435 < 1000000000 ∧
    wordsToNumber (number_to_bulgarian_words 3435) = some 3435 :=
  ⟨by norm_num, c2_roundtrip 3435 (by norm_num)⟩

theorem psv_step (tr : String → String) (s np rem : String)
    (hx : extract_numeric_part s = (some np, rem)) (hne : np ≠ "") :
    process_string_value tr s =
      number_to_bulgarian_words (digitsToNat np.data) ++ " " ++
        levNormalize (translate_text tr rem) := by
  rw [process_string_value, hx]
  simp [hne]

/-- Claim C3 (amended): for a digit run parsing to n ≥ 10^12 the Scalar
Reconstructor does NOT fall back to plain translation of the original
string: `int` on a digit run and `number_to_bulgarian_words` never
raise, so the reconstruction always proceeds, emitting the recursive
decomposition of the out-of-range quotient (e.g. `hilyada miliarda`)
followed by the normalized translated remainder. -/
theorem c3_no_fallback : ∀ (tr : String → String) (s np rem : String),
    extract_numeric_part s = (some np, rem) → np ≠ "" →
    1000000000000 ≤ digitsToNat np.data →
    process_string_value tr s =
      number_to_bulgarian_words (digitsToNat np.data) ++ " " ++
        levNormalize (translate_text tr rem) := by
  intro tr s np rem hx hne _
  exact psv_step tr s np rem hx hne

/-- Witness for C3 (amended) at the input `"1000000000000 leva"` with
the identity capability. -/
theorem c3_witness :
    extract_numeric_part "1000000000000 leva" =
      (some "1000000000000", "leva") ∧
    ("1000000000000" : String) ≠ "" ∧
    1000000000000 ≤ digitsToNat ("1000000000000" : String).data ∧
    process_string_value (fun t => t) "1000000000000 leva" =
      number_to_bulgarian_words (digitsToNat ("1000000000000" : String).data) ++
        " " ++ levNormalize (translate_text (fun t => t) "leva") :=
  ⟨rfl, by decide, by decide,
   c3_no_fallback (fun t => t) _ _ _ rfl (by decide) (by decide)⟩

/-- Counterexample to C3 as stated: on `"1000000000000 leva"` (first
digit run parses to 10^12) the code returns a reconstructed numeral mix
`"hilyada miliarda leva"`, not the plain translation of the original
whole string. -/
theorem c3_counterexample :
    process_string_value (fun t => t) "1000000000000 leva" =
      "hilyada miliarda leva" ∧
    translate_text (fun t => t) "1000000000000 leva" =
      "1000000000000 leva" ∧
    process_string_value (fun t => t) "1000000000000 leva" ≠
      translate_text (fun t => t) "1000000000000 leva" := by
  have h1 := psv_step (fun t => t) "1000000000000 leva" "1000000000000" "leva"
    rfl (by decide)
  have h2 : levNormalize (translate_text (fun t => t) "leva") = "leva" := rfl
  have hd : digitsToNat ("1000000000000" : String).data = 1000000000000 := by
    decide
  rw [h2, hd, n2bw_1e12] at h1
  have h3 : ("hilyada miliarda" : String) ++ " " ++ "leva" =
      "hilyada miliarda leva" := rfl
  rw [h3] at h1
  refine ⟨h1, rfl, ?_⟩
  rw [h1]
  have h4 : translate_text (fun t => t) "1000000000000 leva" =
      "1000000000000 leva" := rfl
  rw [h4]
  decide

theorem containsLev_ne_empty (t : String)
    (h : containsSub (pyLower t).data "lev".data = true) : t ≠ "" := by
  intro hc
  subst hc
  exact absurd h (by decide)

/-- Claim C4: whenever the translated remainder contains the
currency-unit variant `lev` case-insensitively, the Scalar
Reconstructor replaces the whole remainder by the canonical plural form
`leva`; in particular `"3435 лева"` yields the spelled-out words for
3435, one space, and `leva`. -/
theorem c4_currency :
    (∀ (tr : String → String) (s np rem : String),
      extract_numeric_part s = (some np, rem) → np ≠ "" →
      containsSub (pyLower (translate_text tr rem)).data "lev".data = true →
      process_string_value tr s =
        number_to_bulgarian_words (digitsToNat np.data) ++ " " ++ "leva") ∧
    (∀ tr : String → String,
      containsSub (pyLower (translate_text tr "лева")).data "lev".data = true →
      process_string_value tr "3435 лева" =
        number_to_bulgarian_words 3435 ++ " " ++ "leva") := by
  have hgen : ∀ (tr : String → String) (s np rem : String),
      extract_numeric_part s = (some np, rem) → np ≠ "" →
      containsSub (pyLower (translate_text tr rem)).data "lev".data = true →
      process_string_value tr s =
        number_to_bulgarian_words (digitsToNat np.data) ++ " " ++ "leva" := by
    intro tr s np rem hx hne hlev
    rw [psv_step tr s np rem hx hne]
    rw [levNormalize,
      if_pos (by
        simp only [Bool.and_eq_true, hlev, and_true]
        simpa using containsLev_ne_empty _ hlev)]
  refine ⟨hgen, ?_⟩
  intro tr hlev
  have h := hgen tr "3435 лева" "3435" "лева" rfl (by decide) hlev
  rw [show digitsToNat ("3435" : String).data = 3435 from by decide] at h
  exact h

/-- Witness for C4 with a capability translating `лева` to `Levs` (a
different grammatical form); the normalization still forces `leva`. -/
theorem c4_witness :
    containsSub (pyLower (translate_text (fun _ => "Levs") "лева")).data
      "lev".data = true ∧
    process_string_value (fun _ => "Levs") "3435 лева" =
      number_to_bulgarian_words 3435 ++ " " ++ "leva" :=
  ⟨by decide, (c4_currency).2 (fun _ => "Levs") (by decide)⟩

/-- Claim C5: in the 0-999 remainder handled by the Numeral Decomposer,
the conjunction token `i` appears exactly when the tens group (a
20-90 decade) and the units group are both non-zero; values 1-19 are
single table tokens.  Concretely: 0 ↦ `nula`, 20 ↦ `dvadeset` (no
conjunction), 21 ↦ `dvadeset i edno`, 100 ↦ `sto`, 101 ↦ `sto edno`
(no conjunction). -/
theorem c5_conjunction :
    (∀ r : Nat, r ≤ 999 →
      (("i" ∈ wordTokens (number_to_bulgarian_words r)) ↔
        (20 ≤ r % 100 ∧ ¬r % 10 = 0))) ∧
    number_to_bulgarian_words 0 = "nula" ∧
    number_to_bulgarian_words 20 = "dvadeset" ∧
    number_to_bulgarian_words 21 = "dvadeset i edno" ∧
    number_to_bulgarian_words 100 = "sto" ∧
    number_to_bulgarian_words 101 = "sto edno" := by
  refine ⟨?_, n2bw_0, n2bw_20, n2bw_21, n2bw_100, n2bw_101⟩
  intro r hr
  rw [wordTokens_n2bw]
  by_cases h0 : r = 0
  · subst h0
    rw [show flatTokens 0 = ["nula"] from by rw [flatTokens]; rfl]
    simp
  · rw [flatTokens_small r (by omega) (by omega)]
    exact conj_small r (by omega)

/-- Witness for C5 at r = 21. -/
theorem c5_witness : 21 ≤ 999 ∧
    (("i" ∈ wordTokens (number_to_bulgarian_words 21)) ↔
      (20 ≤ 21 % 100 ∧ ¬21 % 10 = 0)) :=
  ⟨by norm_num, (c5_conjunction).1 21 (by norm_num)⟩

/-- Claim C6: each magnitude group with a non-zero quotient contributes
the irregular single-unit form exactly when the quotient is 1, and
otherwise the recursively decomposed quotient followed by the plural
group suffix; concretely 1000 ↦ `hilyada` (irregular single form, not a
plural), 2000 ↦ `dve hilyadi`, 10^6 ↦ `edin milion`, 10^9 ↦
`edin miliard`. -/
theorem c6_groups :
    (∀ n : Nat, 1 ≤ n → wordTokens (number_to_bulgarian_words n) =
      (if n / 1000000000 = 0 then []
       else if n / 1000000000 = 1 then ["edin", "miliard"]
       else wordTokens (number_to_bulgarian_words (n / 1000000000)) ++
         ["miliarda"]) ++
      (if n % 1000000000 / 1000000 = 0 then []
       else if n % 1000000000 / 1000000 = 1 then ["edin", "milion"]
       else wordTokens
         (number_to_bulgarian_words (n % 1000000000 / 1000000)) ++
         ["miliona"]) ++
      (if n % 1000000 / 1000 = 0 then []
       else if n % 1000000 / 1000 = 1 then ["hilyada"]
       else wordTokens (number_to_bulgarian_words (n % 1000000 / 1000)) ++
         ["hilyadi"]) ++
      smallTokens (n % 1000)) ∧
    number_to_bulgarian_words 1000 = "hilyada" ∧
    number_to_bulgarian_words 2000 = "dve hilyadi" ∧
    number_to_bulgarian_words 1000000 = "edin milion" ∧
    number_to_bulgarian_words 1000000000 = "edin miliard" := by
  refine ⟨?_, n2bw_1000, n2bw_2000, n2bw_1e6, n2bw_1e9⟩
  intro n hn
  simp only [wordTokens_n2bw]
  rw [flatTokens, if_neg (show ¬n = 0 by omega)]
  congr 1
  congr 1
  congr 1
  · by_cases hb : 1000000000 ≤ n
    · rw [dif_pos hb, if_neg (show ¬n / 1000000000 = 0 by omega)]
    · rw [dif_neg hb, if_pos (show n / 1000000000 = 0 by omega)]
  · by_cases hm : 1000000 ≤ n % 1000000000
    · rw [dif_pos hm, if_neg (show ¬n % 1000000000 / 1000000 = 0 by omega)]
    · rw [dif_neg hm, if_pos (show n % 1000000000 / 1000000 = 0 by omega)]
  · by_cases ht : 1000 ≤ n % 1000000
    · rw [dif_pos ht, if_neg (show ¬n % 1000000 / 1000 = 0 by omega)]
    · rw [dif_neg ht, if_pos (show n % 1000000 / 1000 = 0 by omega)]

/-- Witness for C6 at n = 1000. -/
theorem c6_witness : 1 ≤ 1000 ∧
    wordTokens (number_to_bulgarian_words 1000) =
      (if 1000 / 1000000000 = 0 then []
       else if 1000 / 1000000000 = 1 then ["edin", "miliard"]
       else wordTokens (number_to_bulgarian_words (1000 / 1000000000)) ++
         ["miliarda"]) ++
      (if 1000 % 1000000000 / 1000000 = 0 then []
       else if 1000 % 1000000000 / 1000000 = 1 then ["edin", "milion"]
       else wordTokens
         (number_to_bulgarian_words (1000 % 1000000000 / 1000000)) ++
         ["miliona"]) ++
      (if 1000 % 1000000 / 1000 = 0 then []
       else if 1000 % 1000000 / 1000 = 1 then ["hilyada"]
       else wordTokens (number_to_bulgarian_words (1000 % 1000000 / 1000)) ++
         ["hilyadi"]) ++
      smallTokens (1000 % 1000) :=
  ⟨by norm_num, (c6_groups).1 1000 (by norm_num)⟩

theorem td_stable : ∀ t, Stable t →
    translate_data (fun s => s) (translate_data (fun s => s) t) =
      translate_data (fun s => s) t := by
  intro t h
  cases t with
  | obj entries =>
    cases entries with
    | nil => rfl
    | cons key v rest =>
      have hfix : translate_data (fun s => s) (Json.obj (.cons key v rest)) =
          Json.obj (.cons key v rest) := by
        rw [translate_data, if_neg (by rw [falsy]; simp)]
        rw [stable_topEntries (.cons key v rest) .nil (by simpa using h.1) h.2]
        rfl
      rw [hfix, hfix]
  | arr items =>
    cases items with
    | nil => rfl
    | cons v rest =>
      have hfix : translate_data (fun s => s) (Json.arr (.cons v rest)) =
          Json.arr (.cons v rest) := by
        rw [translate_data, if_neg (by rw [falsy]; simp)]
        rw [stable_items (.cons v rest) h]
      rw [hfix, hfix]
  | str s =>
    have hfix : translate_data (fun x => x) (Json.str s) = Json.obj .nil := by
      by_cases hs : falsy (Json.str s) = true
      · rw [translate_data, if_pos hs] <;> (intro _ h2; exact Json.noConfusion h2)
      · rw [translate_data, if_neg hs] <;> (intro _ h2; exact Json.noConfusion h2)
    rw [hfix]
    rfl
  | num n =>
    have hfix : translate_data (fun x => x) (Json.num n) = Json.obj .nil := by
      by_cases hs : falsy (Json.num n) = true
      · rw [translate_data, if_pos hs] <;> (intro _ h2; exact Json.noConfusion h2)
      · rw [translate_data, if_neg hs] <;> (intro _ h2; exact Json.noConfusion h2)
    rw [hfix]
    rfl
  | bool b => cases b <;> rfl
  | null => rfl

/-- Claim C7 (amended): with the identity translation capability the
Normalizer is idempotent on `Stable` trees (every mapping value is a
digit-free string or a nested container, keys distinct), both through
`process_property_item` and `translate_data`; such trees are in fact
fixed points.  (As stated the claim fails: re-normalizing a tree in
which a mapping value was a number re-parses the stringified digits and
spells them out, see the counterexample.) -/
theorem c7_amended : ∀ t, Stable t →
    process_property_item (fun s => s) (process_property_item (fun s => s) t) =
      process_property_item (fun s => s) t ∧
    translate_data (fun s => s) (translate_data (fun s => s) t) =
      translate_data (fun s => s) t := by
  intro t h
  refine ⟨?_, td_stable t h⟩
  rw [stable_ppi t h, stable_ppi t h]

/-- Witness for C7 (amended) at a one-entry mapping with a digit-free
string value. -/
theorem c7_witness :
    Stable (Json.obj (JsonEntries.cons "k" (Json.str "x") JsonEntries.nil)) ∧
    process_property_item (fun s => s) (process_property_item (fun s => s)
      (Json.obj (JsonEntries.cons "k" (Json.str "x") JsonEntries.nil))) =
      process_property_item (fun s => s)
        (Json.obj (JsonEntries.cons "k" (Json.str "x") JsonEntries.nil)) :=
  ⟨⟨by decide, (by decide : ∀ c ∈ ("x" : String).data, ¬c.isDigit = true),
    trivial⟩,
   (c7_amended (Json.obj (JsonEntries.cons "k" (Json.str "x") JsonEntries.nil))
     ⟨by decide, (by decide : ∀ c ∈ ("x" : String).data, ¬c.isDigit = true),
      trivial⟩).1⟩

/-- Counterexample to C7 as stated: normalizing `[{"m": 5}]` once gives
`[{"m": "5"}]`, and feeding that output back in gives `[{"m": "pet "}]`
(the stringified number is now re-parsed as a numeral), so the second
pass changes the tree even with the identity capability. -/
theorem c7_counterexample :
    translate_data (fun s => s) (translate_data (fun s => s)
      (Json.arr (.cons (Json.obj (.cons "m" (Json.num 5) .nil)) .nil))) ≠
    translate_data (fun s => s)
      (Json.arr (.cons (Json.obj (.cons "m" (Json.num 5) .nil)) .nil)) := by
  have h1 : translate_data (fun s => s)
      (Json.arr (.cons (Json.obj (.cons "m" (Json.num 5) .nil)) .nil)) =
      Json.arr (.cons (Json.obj (.cons "m" (Json.str "5") .nil)) .nil) := rfl
  have hpsv : process_string_value (fun s => s) "5" = "pet " := by
    have h := psv_step (fun s => s) "5" "5" "" rfl (by decide)
    have h2 : levNormalize (translate_text (fun s => s) "") = "" := rfl
    have hd : digitsToNat ("5" : String).data = 5 := by decide
    rw [h2, hd, n2bw_5] at h
    exact h
  have h2 : translate_data (fun s => s)
      (Json.arr (.cons (Json.obj (.cons "m" (Json.str "5") .nil)) .nil)) =
      Json.arr (.cons (Json.obj (.cons "m"
        (Json.str (process_string_value (fun s => s) "5")) .nil)) .nil) := rfl
  rw [h1, h2, hpsv]
  intro hc
  simp at hc

/-- Claim C8 (amended): a non-string scalar value of a mapping below
the top level is stringified via `str` without passing through the
translation capability, and a non-string scalar at the root of
`process_property_item` is returned untouched; but at the top level of
`translate_data` the stringified value IS passed through
`translate_text`, contradicting the claim as stated (see the
counterexample). -/
theorem c8_amended : ∀ (tr : String → String) (k : String),
    (∀ v, isNonStringScalar v → processDictValue tr v = Json.str (pyStr v)) ∧
    (∀ v, isNonStringScalar v → process_property_item tr v = v) ∧
    (∀ v, isNonStringScalar v →
      translate_data tr (Json.obj (.cons k v .nil)) =
        Json.obj (.cons (translate_text tr k)
          (Json.str (translate_text tr (pyStr v))) .nil)) := by
  intro tr k
  refine ⟨?_, ?_, ?_⟩
  · intro v hv
    cases v with
    | num n => rfl
    | bool b => rfl
    | null => rfl
    | str s => exact absurd hv (by simp [isNonStringScalar])
    | obj e => exact absurd hv (by simp [isNonStringScalar])
    | arr i => exact absurd hv (by simp [isNonStringScalar])
  · intro v hv
    cases v with
    | num n => rfl
    | bool b => rfl
    | null => rfl
    | str s => exact absurd hv (by simp [isNonStringScalar])
    | obj e => exact absurd hv (by simp [isNonStringScalar])
    | arr i => exact absurd hv (by simp [isNonStringScalar])
  · intro v hv
    cases v with
    | num n => rfl
    | bool b => rfl
    | null => rfl
    | str s => exact absurd hv (by simp [isNonStringScalar])
    | obj e => exact absurd hv (by simp [isNonStringScalar])
    | arr i => exact absurd hv (by simp [isNonStringScalar])

/-- Witness for C8 (amended) at the value `None`. -/
theorem c8_witness :
    isNonStringScalar Json.null ∧
    processDictValue (fun s => s) Json.null = Json.str (pyStr Json.null) ∧
    translate_data (fun s => s) (Json.obj (.cons "k" Json.null .nil)) =
      Json.obj (.cons (translate_text (fun s => s) "k")
        (Json.str (translate_text (fun s => s) (pyStr Json.null))) .nil) :=
  ⟨trivial, (c8_amended (fun s => s) "k").1 Json.null trivial,
   (c8_amended (fun s => s) "k").2.2 Json.null trivial⟩

/-- Counterexample to C8 as stated: at the top level of
`translate_data` the numeric value 5 is stringified to `"5"` and then
passed through the translation capability (here translating `"5"` to
`"five"`), so non-string scalars are not always exempt from machine
translation. -/
theorem c8_counterexample :
    translate_data (fun s => if s = "5" then "five" else s)
      (Json.obj (.cons "k" (Json.num 5) .nil)) =
      Json.obj (.cons "k" (Json.str "five") .nil) ∧
    translate_data (fun s => if s = "5" then "five" else s)
      (Json.obj (.cons "k" (Json.num 5) .nil)) ≠
      Json.obj (.cons "k" (Json.str "5") .nil) := by
  have h1 : translate_data (fun s => if s = "5" then "five" else s)
      (Json.obj (.cons "k" (Json.num 5) .nil)) =
      Json.obj (.cons "k" (Json.str "five") .nil) := rfl
  refine ⟨h1, ?_⟩
  rw [h1]
  intro hc
  simp at hc

/-- Claim C9: the Property Extractor appends a mapping whole, without
recursing into it, exactly when at least one key, lowercased then
translated, is one of the markers district/type/area/price; a mapping
with no marker key is never emitted and is recursed value by value,
sequences are recursed element by element, and the extractor finds
nothing in a mapping containing only `foo: bar`. -/
theorem c9_extractor : ∀ (tr : String → String) (entries : JsonEntries)
    (acc : JsonItems) (items : JsonItems),
    (property_like tr entries = true ↔
      ∃ p ∈ entries.toList, translate_text tr (pyLower p.1) ∈
        (["district", "type", "area", "price"] : List String)) ∧
    (property_like tr entries = true →
      extract_properties tr (Json.obj entries) acc =
        acc.push (Json.obj entries)) ∧
    (property_like tr entries = false →
      extract_properties tr (Json.obj entries) acc =
        extractFromValues tr entries acc ∧
      Json.obj entries ∉
        (extract_properties tr (Json.obj entries) JsonItems.nil).toList) ∧
    (extract_properties tr (Json.arr items) acc =
      extractFromItems tr items acc) ∧
    extract_properties (fun s => s)
      (Json.obj (.cons "foo" (Json.str "bar") .nil)) JsonItems.nil =
      JsonItems.nil := by
  intro tr entries acc items
  refine ⟨property_like_iff tr entries, ?_, ?_, rfl, rfl⟩
  · intro h
    rw [extract_properties, if_pos h]
  · intro h
    refine ⟨by rw [extract_properties, if_neg (by simp [h])], ?_⟩
    intro hmem
    rcases extract_mem tr (Json.obj entries) JsonItems.nil _ hmem with h2 | h2
    · simp [JsonItems.toList] at h2
    · rw [isPropLike] at h2
      rw [h] at h2
      exact Bool.noConfusion h2

/-- Witness for C9 at a listing-like mapping carrying a `price` key,
with the identity capability. -/
theorem c9_witness :
    property_like (fun s => s)
      (JsonEntries.cons "price" (Json.str "1") JsonEntries.nil) = true ∧
    extract_properties (fun s => s)
      (Json.obj (JsonEntries.cons "price" (Json.str "1") JsonEntries.nil))
      JsonItems.nil =
      JsonItems.nil.push
        (Json.obj (JsonEntries.cons "price" (Json.str "1") JsonEntries.nil)) :=
  ⟨by decide,
   (c9_extractor (fun s => s) _ JsonItems.nil JsonItems.nil).2.1 (by decide)⟩

/-- Claim C10: `number_to_bulgarian_words` terminates on every
non-negative integer: each recursive call receives a group quotient
strictly smaller than the argument, so the recursion is well-founded
and the function is total (and, for positive inputs, productive). -/
theorem c10_termination : ∀ n : Nat,
    (1000000000 ≤ n → n / 1000000000 < n) ∧
    (1000000 ≤ n % 1000000000 → n % 1000000000 / 1000000 < n) ∧
    (1000 ≤ n % 1000000 → n % 1000000 / 1000 < n) ∧
    ∃ w : String, number_to_bulgarian_words n = w ∧ (1 ≤ n → w ≠ "") := by
  intro n
  refine ⟨by omega, by omega, by omega, number_to_bulgarian_words n, rfl, ?_⟩
  intro h1
  rw [n2bw_eq_joinSp_flat]
  exact joinSp_ne_empty (flatTokens n) (flatTokens_ne_nil n h1)
    (fun w hw => (flatTokens_wf n w hw).1)

/-- Witness for C10 at n = 10^9 and n = 1. -/
theorem c10_witness :
    (1000000000 : Nat) / 1000000000 < 1000000000 ∧
    number_to_bulgarian_words 1 ≠ "" := by
  refine ⟨(c10_termination 1000000000).1 (by norm_num), ?_⟩
  obtain ⟨w, hw, hne⟩ := (c10_termination 1).2.2.2
  rw [hw]
  exact hne (by norm_num)
